import Mathlib

/-!
# The code generator of `cmd/ggraphqlc/dumper.go`

A shallow embedding of the source writer of `dumper.go` and the properties of the
text it emits.

Modelling decisions.

* Go strings are modelled by `String` (sequences of Unicode scalar values), so only
  strings that are valid UTF-8 are covered.
* `writer.out` is an `io.Writer`.  It is modelled by the sequence of strings handed to
  it, one entry per `Write` call, oldest first; the bytes produced are the
  concatenation of the entries.  A call of `line`, `begin` or `end` hands over three
  entries: the indentation, the formatted text and the line feed.
* A Go panic (an index out of range in `ucFirst`/`lcFirst`, a negative count given to
  `strings.Repeat`) is modelled by the result `none`.
* `indent` is a Go `int`; it is modelled by `Int`.  It moves by one per nesting level of
  the emitted code, so the 64-bit wrap-around is out of reach and is not modelled.
* The declarations of `kind`, `Field`, `object`, `extractor`, the constants `modPtr`
  and `modList` and the method `Local` are not in `dumper.go`.  The records below have
  the fields `dumper.go` reads; the value returned by `Local()` is carried as a field;
  the two constants, `unicode.ToUpper`, `unicode.ToLower` and `unicode.IsPrint` (beyond
  ASCII) are parameters, collected in `Env`.
* `w.Imports` is a Go map, whose `range` order Go leaves open.  The model holds its entries
  as a list in the order in which one `range` statement visits them; two runs on the same
  map are two lists that are permutations of each other.
* `filepath.Base` is modelled for the separator `/`.
-/

namespace Dumper

/-! ## Library functions -/

/-- Parameters of the model: the constants `modPtr` and `modList` (declared outside
`dumper.go`) and the Unicode tables of the Go library. -/
structure Env where
  modPtr : String
  modList : String
  ToUpper : Char → Char
  ToLower : Char → Char
  IsPrint : Char → Bool

/-- An operand of `fmt.Sprintf`: the generator passes strings and ints only. -/
inductive Value where
  | str (s : String)
  | int (i : Int)

/-- Decimal rendering of an int, `strconv.Itoa`. -/
def Itoa (i : Int) : String := toString i

/-- Type name of an operand as `fmt` prints it in its diagnostics. -/
def Value.typeName : Value → String
  | .str _ => "string"
  | .int _ => "int"

/-- Default rendering of an operand. -/
def Value.text : Value → String
  | .str s => s
  | .int i => Itoa i

/-- Rendering of one operand under the verb `c`: `%s` of a string, `%d` of an int, and
the bad-verb diagnostic `%!c(type=value)` otherwise. -/
def fmtVerb (c : Char) (a : Value) : List Char :=
  match a with
  | .str s =>
    if c = 's' then s.data
    else "%!".data ++ [c] ++ "(string=".data ++ s.data ++ ")".data
  | .int i =>
    if c = 'd' then (Itoa i).data
    else "%!".data ++ [c] ++ "(int=".data ++ (Itoa i).data ++ ")".data

/-- Diagnostic for operands left over at the end of the format. -/
def fmtExtra : List Value → List Char
  | [] => []
  | a :: as =>
    "%!(EXTRA ".data
      ++ (String.intercalate ", " ((a :: as).map fun v => v.typeName ++ "=" ++ v.text)).data
      ++ ")".data

/-- Scan of the format string of `fmt.Sprintf`.  Exact for formats in which every
percent sign is followed by `s`, `d` or `%`, or ends the format, or finds no operand
left (`%!c(MISSING)`); flags, widths and the other verbs are not modelled. -/
def SprintfAux : List Char → List Value → List Char
  | [], args => fmtExtra args
  | c :: cs, args =>
    if c = '%' then
      match cs, args with
      | [], args => "%!(NOVERB)".data ++ fmtExtra args
      | d :: ds, args =>
        if d = '%' then '%' :: SprintfAux ds args
        else match args with
          | [] => "%!".data ++ [d] ++ "(MISSING)".data ++ SprintfAux ds []
          | a :: as => fmtVerb d a ++ SprintfAux ds as
    else c :: SprintfAux cs args

/-- Model of `fmt.Sprintf(format, args...)`. -/
def Sprintf (format : String) (args : List Value) : String :=
  ⟨SprintfAux format.data args⟩

/-- Model of `strings.Repeat(s, count)`: it panics on a negative count. -/
def stringsRepeat (s : String) (count : Int) : Option String :=
  if count < 0 then none else some (String.join (List.replicate count.toNat s))

/-- Model of `strings.Join(elems, sep)`. -/
def stringsJoin (elems : List String) (sep : String) : String :=
  String.intercalate sep elems

/-- Lower-case hexadecimal digit of a number below 16. -/
def lowerhex (n : Nat) : Char :=
  "0123456789abcdef".data.getD n '0'

/-- Escaped form of one rune inside `strconv.Quote`. -/
def quoteRune (E : Env) (r : Char) : List Char :=
  if r = '"' ∨ r = '\\' then ['\\', r]
  else if (if r.val.toNat < 0x80 then decide (0x20 ≤ r.val.toNat ∧ r.val.toNat < 0x7f)
           else E.IsPrint r) then [r]
  else if r.val.toNat = 7 then "\\a".data
  else if r.val.toNat = 8 then "\\b".data
  else if r.val.toNat = 12 then "\\f".data
  else if r.val.toNat = 10 then "\\n".data
  else if r.val.toNat = 13 then "\\r".data
  else if r.val.toNat = 9 then "\\t".data
  else if r.val.toNat = 11 then "\\v".data
  else if r.val.toNat < 0x20 ∨ r.val.toNat = 0x7f then
    "\\x".data ++ [lowerhex (r.val.toNat / 16), lowerhex (r.val.toNat % 16)]
  else if r.val.toNat < 0x10000 then
    "\\u".data ++ [12, 8, 4, 0].map fun s => lowerhex (r.val.toNat / 2 ^ s % 16)
  else
    "\\U".data ++ [28, 24, 20, 16, 12, 8, 4, 0].map fun s => lowerhex (r.val.toNat / 2 ^ s % 16)

/-- Model of `strconv.Quote(s)`: a double-quoted Go string literal. -/
def Quote (E : Env) (s : String) : String :=
  ⟨'"' :: (s.data.flatMap (quoteRune E)) ++ ['"']⟩

/-- Model of `filepath.Base(path)` with the separator `/` (the Unix build): the last
element of the path, after the trailing separators are removed; `.` for the empty path
and `/` for a path made of separators only. -/
def filepathBase (path : String) : String :=
  if path = "" then "."
  else
    let stripped := path.data.reverse.dropWhile fun c => c = '/'
    let last := stripped.takeWhile fun c => c ≠ '/'
    if last = [] then "/" else ⟨last.reverse⟩

/-! ## The data model read by the generator -/

/-- Type descriptor.  `Local` is the value returned by the method `Local()`. -/
inductive kind where
  | mk (GraphQLName Name Local : String) (Basic : Bool) (Modifiers : List String)
      (Implementors : List kind)

namespace kind

def GraphQLName : kind → String
  | mk g _ _ _ _ _ => g

def Name : kind → String
  | mk _ n _ _ _ _ => n

def Local : kind → String
  | mk _ _ l _ _ _ => l

def Basic : kind → Bool
  | mk _ _ _ b _ _ => b

def Modifiers : kind → List String
  | mk _ _ _ _ m _ => m

def Implementors : kind → List kind
  | mk _ _ _ _ _ is => is

/-- Modelled from the spec: the method `IsPtr()`, declared outside `dumper.go`; it
holds when "the target type's modifier chain begins with optional". -/
def IsPtr (E : Env) (t : kind) : Bool :=
  match t.Modifiers with
  | [] => false
  | m :: _ => decide (m = E.modPtr)

end kind

/-- A declared argument of a field. -/
structure FieldArgument where
  Name : String
  Type_ : kind

/-- A field of an object. -/
structure Field where
  GraphQLName : String
  VarName : String
  MethodName : String
  Args : List FieldArgument
  Type_ : kind
  NoErr : Bool

/-- An object of the schema. -/
structure object where
  Name : String
  Type_ : kind
  Root : Bool
  Fields : List Field
  satisfies : List String

/-- The model handed to the writer.  `Imports` is a Go map; it is given as the list of
its (local alias, path) entries in the order one `range` statement visits them. -/
structure extractor where
  PackageName : String
  Imports : List (String × String)
  Objects : List object
  schemaRaw : String

/-! ## The writer -/

/-- The writer: the embedded model, the writes received by `out` and the indent. -/
structure writer where
  extractor : extractor
  out : List String
  indent : Int

/-- Model of `ucFirst`: it panics on the empty string. -/
def ucFirst (E : Env) (s : String) : Option String :=
  match s.data with
  | [] => none
  | r :: rs => some ⟨E.ToUpper r :: rs⟩

/-- Model of `lcFirst`: it panics on the empty string. -/
def lcFirst (E : Env) (s : String) : Option String :=
  match s.data with
  | [] => none
  | r :: rs => some ⟨E.ToLower r :: rs⟩

namespace writer

def emit (w : writer) (format : String) (args : List Value) : writer :=
  { w with out := w.out ++ [Sprintf format args] }

def emitIndent (w : writer) : Option writer :=
  (stringsRepeat "\t" w.indent).map fun s => { w with out := w.out ++ [s] }

def lf (w : writer) : writer :=
  { w with out := w.out ++ ["\n"] }

def begin (w : writer) (format : String) (args : List Value) : Option writer := do
  let w ← w.emitIndent
  let w := w.emit format args
  let w := w.lf
  pure { w with indent := w.indent + 1 }

/-- The method `end` of the source. -/
def end_ (w : writer) (format : String) (args : List Value) : Option writer := do
  let w := { w with indent := w.indent - 1 }
  let w ← w.emitIndent
  let w := w.emit format args
  pure w.lf

def line (w : writer) (format : String) (args : List Value) : Option writer := do
  let w ← w.emitIndent
  let w := w.emit format args
  pure w.lf

end writer

/-- Model of `getFuncArgs`. -/
def getFuncArgs (object : object) (field : Field) : String :=
  let args : List String := []
  let args :=
    if field.MethodName = "" then
      let args := args ++ ["ec.ctx"]
      if !object.Root then args ++ ["it"] else args
    else args
  let args := (List.range field.Args.length).foldl
    (fun args (i : Nat) => args ++ ["arg" ++ Itoa i]) args
  stringsJoin args ", "

namespace writer

/-- Body of the loop over `f.Args` in `writeInterface`. -/
def writeInterfaceArg (w : writer) (arg : FieldArgument) : writer :=
  w.emit ", %s %s" [.str arg.Name, .str arg.Type_.Local]

/-- Body of the loop over `o.Fields` in `writeInterface`. -/
def writeInterfaceField (w : writer) (o : object) (f : Field) : Option writer :=
  if f.VarName ≠ "" ∨ f.MethodName ≠ "" then pure w
  else do
    let w ← w.emitIndent
    let w := w.emit "%s_%s(" [.str o.Name, .str f.GraphQLName]
    let w := w.emit "ctx context.Context" []
    let w := if !o.Root then w.emit ", it *%s" [.str o.Type_.Local] else w
    let w := f.Args.foldl writeInterfaceArg w
    let w := w.emit ") (%s, error)" [.str f.Type_.Local]
    pure w.lf

def writeInterface (w : writer) : Option writer := do
  let w ← w.begin "type Resolvers interface \x7b" []
  let w ← w.extractor.Objects.foldlM
    (fun w o => o.Fields.foldlM (fun w f => w.writeInterfaceField o f) w) w
  let w ← w.end_ "\x7d" []
  pure w.lf

def writeEvaluateVar (w : writer) (field : Field) : Option writer :=
  w.line "res := %s" [.str field.VarName]

/-- Body of the loop of `writeArgs`, for the argument `arg` at position `i`. -/
def writeArg (E : Env) (w : writer) (i : Nat) (arg : FieldArgument) : Option writer := do
  let w ← w.line "var arg%d %s" [.int i, .str arg.Type_.Local]
  if arg.Type_.Basic then do
    let w ← w.line "if tmp, ok := field.Args[%s]; ok \x7b" [.str (Quote E arg.Name)]
    let w ←
      if arg.Type_.IsPtr E then do
        let w ← w.line "\ttmp2 := tmp.(%s)" [.str arg.Type_.Name]
        w.line "\targ%d = &tmp2" [.int i]
      else
        w.line "\targ%d = tmp.(%s)" [.int i, .str arg.Type_.Name]
    w.line "\x7d" []
  else do
    let w ← w.line "err := unpackComplexArg(&arg1, field.Args[%s])" [.str (Quote E arg.Name)]
    let w ← w.line "if err != nil \x7b" []
    let w ← w.line "\tec.Error(err)" []
    w.line "\x7d" []

def writeArgs (E : Env) (w : writer) (field : Field) : Option writer :=
  field.Args.enum.foldlM (fun w ia => w.writeArg E ia.1 ia.2) w

def writeEvaluateMethod (E : Env) (w : writer) (object : object) (field : Field) :
    Option writer := do
  let methodName :=
    if field.MethodName ≠ "" then field.MethodName
    else Sprintf "ec.resolvers.%s_%s" [.str object.Name, .str field.GraphQLName]
  let w ← w.writeArgs E field
  if field.NoErr then
    w.line "res := %s(%s)" [.str methodName, .str (getFuncArgs object field)]
  else do
    let w ← w.line "res, err := %s(%s)" [.str methodName, .str (getFuncArgs object field)]
    let w ← w.line "if err != nil \x7b" []
    let w ← w.line "\tec.Error(err)" []
    let w ← w.line "\tcontinue" []
    w.line "\x7d" []

/-- Body of the loop over `t.Implementors` in `doWriteJsonType`. -/
def writeImplementor (E : Env) (w : writer) (implementor : kind) : Option writer := do
  let w ← w.line "case %s:" [.str implementor.Local]
  let w ← w.line "\t_%s(ec, field.Selections, &it)" [.str (← lcFirst E implementor.GraphQLName)]
  let w ← w.line "case *%s:" [.str implementor.Local]
  w.line "\t_%s(ec, field.Selections, it)" [.str (← lcFirst E implementor.GraphQLName)]

/-- Model of `doWriteJsonType`.  The loop over `remainingMods` returns from inside at the
first element equal to `modPtr` or `modList` and steps over any other element. -/
def doWriteJsonType (E : Env) (t : kind) :
    writer → String → List String → Bool → Option writer
  | w, val, m :: remainingMods, isPtr =>
    if m = E.modPtr then do
      let w ← w.begin "if %s == nil \x7b" [.str val]
      let w ← w.line "ec.json.Null()" []
      let w := { w with indent := w.indent - 1 }
      let w ← w.begin "\x7d else \x7b" []
      let w ← doWriteJsonType E t w val remainingMods true
      w.end_ "\x7d" []
    else if m = E.modList then do
      let val := if isPtr then "*" ++ val else val
      let w ← w.line "ec.json.BeginArray()" []
      let w ← w.begin "for _, val := range %s \x7b" [.str val]
      let w ← doWriteJsonType E t w "val" remainingMods false
      let w ← w.end_ "\x7d" []
      w.line "ec.json.EndArray()" []
    else doWriteJsonType E t w val remainingMods isPtr
  | w, val, [], isPtr =>
    if t.Basic then do
      let val := if isPtr then "*" ++ val else val
      w.line "ec.json.%s(%s)" [.str (← ucFirst E t.Name), .str val]
    else if t.Implementors.length > 0 then do
      let w ← w.line "switch it := %s.(type) \x7b" [.str val]
      let w ← w.line "case nil:" []
      let w ← w.line "\tec.json.Null()" []
      let w ← t.Implementors.foldlM (writeImplementor E) w
      let w ← w.line "default:" []
      let w ← w.line "\tpanic(fmt.Errorf(\"unexpected type %%T\", it))" []
      w.line "\x7d" []
    else do
      let val := if !isPtr then "&" ++ val else val
      w.line "_%s(ec, field.Selections, %s)" [.str (← lcFirst E t.GraphQLName), .str val]

def writeJsonType (E : Env) (w : writer) (t : kind) (val : String) : Option writer :=
  doWriteJsonType E t w val t.Modifiers false

/-- Body of the loop over `object.Fields` in `writeObjectResolver`. -/
def writeObjectResolverField (E : Env) (w : writer) (object : object) (field : Field) :
    Option writer := do
  let w ← w.begin "case %s:" [.str (Quote E field.GraphQLName)]
  let w ← w.line "ec.json.ObjectKey(field.Alias)" []
  let w ←
    if field.VarName ≠ "" then w.writeEvaluateVar field
    else w.writeEvaluateMethod E object field
  let w ← w.writeJsonType E field.Type_ "res"
  let w ← w.line "continue" []
  w.end_ "" []

/-- Runs the statements `fs` one after the other; a panic stops the run. -/
def seq (fs : List (writer → Option writer)) (w : writer) : Option writer :=
  fs.foldlM (fun w f => f w) w

def writeObjectResolver (E : Env) (w : writer) (object : object) : Option writer :=
  seq [
    fun w => w.line "// nolint: gocyclo, errcheck, gas, goconst" [],
    fun w => do
      w.begin "func _%s(ec *executionContext, sel []query.Selection, it *%s) \x7b"
        [.str (← lcFirst E object.Type_.GraphQLName), .str object.Type_.Local],
    fun w => do
      w.line "groupedFieldSet := ec.collectFields(sel, %sSatisfies, map[string]bool\x7b\x7d)"
        [.str (← lcFirst E object.Type_.GraphQLName)],
    fun w => w.line "ec.json.BeginObject()" [],
    fun w => w.begin "for _, field := range groupedFieldSet \x7b" [],
    fun w => w.line "switch field.Name \x7b" [],
    fun w => object.Fields.foldlM (fun w field => w.writeObjectResolverField E object field) w,
    fun w => w.line "\x7d" [],
    fun w => w.line "panic(\"unknown field \" + strconv.Quote(field.Name))" [],
    fun w => w.end_ "\x7d" [],
    fun w => w.line "ec.json.EndObject()" [],
    fun w => w.end_ "\x7d" [],
    fun w => pure w.lf] w

def writePackage (w : writer) : Option writer := do
  let w ← w.line "package %s" [.str w.extractor.PackageName]
  pure w.lf

/-- Body of the loop over `w.Imports` in `writeImports`, for the entry with the key
`local` and the value `pkg`. -/
def writeImport (E : Env) (w : writer) (local_ pkg : String) : Option writer :=
  if local_ = filepathBase pkg then
    w.line (Quote E pkg) []
  else
    w.line "%s %s" [.str local_, .str (Quote E pkg)]

def writeImports (E : Env) (w : writer) : Option writer := do
  let w ← w.begin "import (" []
  let w ← w.extractor.Imports.foldlM (fun w lp => w.writeImport E lp.1 lp.2) w
  let w ← w.end_ ")" []
  pure w.lf

/-- The string `satisfies` built for one object in `writeVars`. -/
def satisfiesList (E : Env) (o : object) : String :=
  o.satisfies.foldl (fun satisfies s => satisfies ++ (", " ++ Quote E s))
    (Quote E o.Type_.GraphQLName)

/-- Body of the loop over `w.Objects` in `writeVars`. -/
def writeVar (E : Env) (w : writer) (o : object) : Option writer := do
  let satisfies := satisfiesList E o
  w.line "%sSatisfies = []string\x7b%s\x7d"
    [.str (← lcFirst E o.Type_.GraphQLName), .str satisfies]

def writeVars (E : Env) (w : writer) : Option writer := do
  let w ← w.begin "var (" []
  let w ← w.extractor.Objects.foldlM (writeVar E) w
  let w ← w.end_ ")" []
  pure w.lf

def writeSchema (E : Env) (w : writer) : Option writer :=
  w.line "var parsedSchema = schema.MustParse(%s)" [.str (Quote E w.extractor.schemaRaw)]

def importHack (w : writer) : Option writer :=
  w.line "var _ = fmt.Print" []

end writer

/-! ## Observing the emitted text -/

/-- The writes made by the action `f` when it is run on the model `x` at indent `n`
with nothing written before; `none` when `f` panics. -/
def emitted (f : writer → Option writer) (x : extractor) (n : Int) : Option (List String) :=
  (f ⟨x, [], n⟩).map fun w => w.out

/-- Indentation of a line at indent `n`. -/
def tabs (n : Int) : String := String.join (List.replicate n.toNat "\t")

/-- The three writes of one line of text `s` at indent `n`. -/
def ln (n : Int) (s : String) : List String := [tabs n, s, "\n"]

/-- The names read at the end of the modifier chain are non-empty, so that `ucFirst` and
`lcFirst` do not panic there. -/
def namesOk (t : kind) : Bool :=
  if t.Basic then decide (t.Name ≠ "")
  else if 0 < t.Implementors.length then t.Implementors.all fun i => decide (i.GraphQLName ≠ "")
  else decide (t.GraphQLName ≠ "")

/-- Concatenation of the texts of successive statements; `none` when one of them
panics. -/
def texts : List (Option (List String)) → Option (List String)
  | [] => some []
  | o :: os => o.bind fun a => (texts os).map fun b => a ++ b

/-- The action `f` leaves the model and the indent as they were and appends to `out` the
writes `T x n`, which depend on the model `x` and the indent `n` only; it panics when
`T x n` is `none`. -/
def Emits (f : writer → Option writer) (T : extractor → Int → Option (List String)) : Prop :=
  ∀ w : writer, f w = (T w.extractor w.indent).map fun s => { w with out := w.out ++ s }

/-- The write `s` is a case label of a Go switch: it starts with `case `. -/
def isCaseLabel (s : String) : Bool := "case ".data.isPrefixOf s.data

/-- The operation of the resolver contract specified for the field `f` of the object `o`,
as the writes of one line at indent `n`: the name `<Object.Name>_<Field.GraphQLName>`, the
context parameter, the instance parameter unless the object is Root, one parameter per
declared argument, and the result pair. -/
def specOperation (n : Int) (o : object) (f : Field) : List String :=
  [tabs n, o.Name ++ "_" ++ f.GraphQLName ++ "(", "ctx context.Context"]
    ++ (if o.Root then [] else [", it *" ++ o.Type_.Local])
    ++ f.Args.map (fun arg => ", " ++ arg.Name ++ " " ++ arg.Type_.Local)
    ++ [") (" ++ f.Type_.Local ++ ", error)", "\n"]

/-- The text `s` is one of the lines that `doWriteJsonType` writes around the code of the
remaining chain: the nil guard and its branches, the array tokens and the loop. -/
def isWrapperText (s : String) : Bool :=
  s ∈ ["ec.json.Null()", "\x7d else \x7b", "\x7d", "ec.json.BeginArray()", "ec.json.EndArray()"]
    || "if ".data.isPrefixOf s.data
    || "for _, val := range ".data.isPrefixOf s.data

/-- The dereferenced flag with which `doWriteJsonType`, entered with the flag `isPtr`,
reaches the end of a chain of optional and list modifiers: each recursive call sets it
when the modifier it consumes is the optional one and resets it otherwise. -/
def leafFlag (E : Env) : List String → Bool → Bool
  | [], isPtr => isPtr
  | m :: remainingMods, _ => leafFlag E remainingMods (decide (m = E.modPtr))

/-- The writes of the lines `ls`, each given by its indent and its text. -/
def linesText (ls : List (Int × String)) : List String :=
  ls.flatMap fun p => ln p.1 p.2

/-- The writes of one line: the line feed alone for a blank line, written without
indentation; otherwise the indentation for the indent `k`, the writes of the text, and the
line feed. -/
def lineWrites : Option (Int × List String) → List String
  | none => ["\n"]
  | some (k, body) => tabs k :: body ++ ["\n"]

/-- The writes `out` are a sequence of lines each of which is blank or indented for an
indent of at least `n`; no write of the text of a line is a line feed, so the lines are
the segments of `out` that end at its line feeds. -/
def IndentedFrom (n : Int) (out : List String) : Prop :=
  ∃ ls : List (Option (Int × List String)),
    out = ls.flatMap lineWrites ∧ ∀ k body, some (k, body) ∈ ls → n ≤ k ∧ "\n" ∉ body

/-- The text `s` does not start with a line feed nor with the letter `p`. -/
def okHead (s : String) : Bool :=
  s.data.head? != some '\n' && s.data.head? != some 'p'

/-- The writes `out` are lines of one text each, at indents of at least `n`, whose texts
satisfy `okHead`. -/
def LinesFrom (n : Int) (out : List String) : Prop :=
  ∃ ls : List (Int × String), out = linesText ls ∧ ∀ p ∈ ls, n ≤ p.1 ∧ okHead p.2 = true

/-- The names read by `writeObjectResolver` for the object `o` are non-empty. -/
def objectOk (o : object) : Bool :=
  decide (o.Type_.GraphQLName ≠ "") && o.Fields.all fun f => namesOk f.Type_

/-! ## Worked examples -/

/-- An instance of the parameters: `*` and `[]` for the two modifiers, the ASCII case
mappings, and every rune beyond ASCII taken as printable. -/
def exampleEnv : Env := ⟨"*", "[]", Char.toUpper, Char.toLower, fun _ => true⟩

/-- The Basic kind `string`, without modifiers. -/
def stringKind : kind := kind.mk "String" "string" "string" true [] []

/-- The Basic kind `bool`, without modifiers. -/
def boolKind : kind := kind.mk "Boolean" "bool" "bool" true [] []

/-- A list of optional lists of strings: the chain list, optional, list. -/
def nestedKind : kind := kind.mk "String" "string" "[]*[]string" true ["[]", "*", "[]"] []

/-- The plain object kind `Todo`. -/
def todoKind : kind := kind.mk "Todo" "Todo" "Todo" false [] []

/-- The plain object kind `User`. -/
def userKind : kind := kind.mk "User" "User" "User" false [] []

/-- A polymorphic kind with the two Implementors `Todo` and `User`. -/
def nodeKind : kind := kind.mk "Node" "Node" "Node" false [] [todoKind, userKind]

/-- The Basic kind `int`, without modifiers. -/
def intKind : kind := kind.mk "Int" "int" "int" true [] []

/-- The object `Todo` of the spec: `id` is bound to the variable `ID`, `text` and `done`
are unbound. -/
def todoObject : object :=
  { Name := "Todo", Type_ := todoKind, Root := false,
    Fields := [⟨"id", "ID", "", [], stringKind, false⟩,
               ⟨"text", "", "", [], stringKind, false⟩,
               ⟨"done", "", "", [], boolKind, false⟩],
    satisfies := [] }

/-- A model whose only object is `Todo`. -/
def todoModel : extractor := ⟨"gen", [], [todoObject], ""⟩

/-- An unbound field `todo(id: Int)` of a Root object. -/
def todoField : Field := ⟨"todo", "", "", [⟨"id", intKind⟩], todoKind, false⟩

/-- A Root object `Query` with the field `todo`. -/
def queryObject : object :=
  { Name := "Query", Type_ := kind.mk "Query" "Query" "Query" false [] [], Root := true,
    Fields := [todoField], satisfies := [] }

/-- The composite input kind `TodoInput`. -/
def todoInputKind : kind := kind.mk "TodoInput" "TodoInput" "TodoInput" false [] []

/-- An unbound field `createTodo(todo: TodoInput)`: its only argument, at position 0, is
not Basic. -/
def createTodoField : Field := ⟨"createTodo", "", "", [⟨"todo", todoInputKind⟩], todoKind, false⟩

/-- An unbound field with two Basic arguments, the second of an optional type. -/
def findField : Field :=
  ⟨"find", "", "", [⟨"id", intKind⟩, ⟨"name", kind.mk "String" "string" "*string" true ["*"] []⟩],
    todoKind, false⟩

/-- The object `Todo` declared to satisfy `Node` and `Entity` as well. -/
def nodeTodoObject : object := { todoObject with satisfies := ["Node", "Entity"] }

/-- A model with one import whose alias is the last element of its path and one whose
alias is not. -/
def importsModel : extractor :=
  ⟨"gen", [("query", "github.com/vektah/gqlgen/neelance/query"), ("gql", "example.com/graphql")],
    [], ""⟩

/-- The model `importsModel` with the two entries of the map visited in the other
order. -/
def importsModelSwapped : extractor :=
  ⟨"gen", [("gql", "example.com/graphql"), ("query", "github.com/vektah/gqlgen/neelance/query")],
    [], ""⟩

/-- A model with one import whose path holds a percent sign and whose alias is the last
element of the path. -/
def percentModel : extractor := ⟨"gen", [("a%sb", "lib/a%sb")], [], ""⟩

/-- The unbound field `text` of `Todo`. -/
def textField : Field := ⟨"text", "", "", [], stringKind, false⟩

/-- An unbound field `text` whose `NoErr` flag is set. -/
def textNoErrField : Field := ⟨"text", "", "", [], stringKind, true⟩

/-- The write `s` starts with the two-value binding `res, err := `. -/
def isPairBinding (s : String) : Bool := "res, err := ".data.isPrefixOf s.data

/-- The write `s` starts with the short declaration `err := `. -/
def isErrDecl (s : String) : Bool := "err := ".data.isPrefixOf s.data

/-- The write `s` starts with a declaration `var arg`. -/
def isVarDecl (s : String) : Bool := "var arg".data.isPrefixOf s.data

/-- An unbound field with two arguments whose types are not Basic. -/
def mergeField : Field :=
  ⟨"merge", "", "", [⟨"left", todoInputKind⟩, ⟨"right", todoInputKind⟩], todoKind, false⟩

/-- A list of optional strings: the chain list, optional. -/
def optionalItemsKind : kind := kind.mk "String" "string" "[]*string" true ["[]", "*"] []

/-- A model without objects. -/
def emptyModel : extractor := ⟨"gen", [], [], ""⟩

/-! ## Basic facts about the writer -/

namespace writer

theorem line_some {w : writer} (h : 0 ≤ w.indent) (format : String) (args : List Value) :
    w.line format args = some { w with out := w.out ++ ln w.indent (Sprintf format args) } := by
  have h' : ¬ w.indent < 0 := by omega
  simp [line, emitIndent, stringsRepeat, h', emit, lf, ln, tabs]

theorem line_none {w : writer} (h : w.indent < 0) (format : String) (args : List Value) :
    w.line format args = none := by
  simp [line, emitIndent, stringsRepeat, h]

theorem begin_some {w : writer} (h : 0 ≤ w.indent) (format : String) (args : List Value) :
    w.begin format args =
      some { w with out := w.out ++ ln w.indent (Sprintf format args), indent := w.indent + 1 } := by
  have h' : ¬ w.indent < 0 := by omega
  simp [begin, emitIndent, stringsRepeat, h', emit, lf, ln, tabs]

theorem begin_none {w : writer} (h : w.indent < 0) (format : String) (args : List Value) :
    w.begin format args = none := by
  simp [begin, emitIndent, stringsRepeat, h]

theorem end_some {w : writer} (h : 1 ≤ w.indent) (format : String) (args : List Value) :
    w.end_ format args =
      some { w with out := w.out ++ ln (w.indent - 1) (Sprintf format args),
                    indent := w.indent - 1 } := by
  have h' : ¬ w.indent - 1 < 0 := by omega
  simp [end_, emitIndent, stringsRepeat, h', emit, lf, ln, tabs]

theorem end_none {w : writer} (h : w.indent < 1) (format : String) (args : List Value) :
    w.end_ format args = none := by
  have h' : w.indent - 1 < 0 := by omega
  simp [end_, emitIndent, stringsRepeat, h']

end writer

open writer

/-! ## Composition of emitted texts -/

theorem Emits.emitted_eq {f : writer → Option writer} {T : extractor → Int → Option (List String)}
    (h : Emits f T) (x : extractor) (n : Int) : emitted f x n = T x n := by
  simp [emitted, h ⟨x, [], n⟩]
  cases T x n <;> simp

theorem Emits.self {f : writer → Option writer} {T : extractor → Int → Option (List String)}
    (h : Emits f T) : Emits f (emitted f) := by
  intro w
  rw [h.emitted_eq]
  exact h w

theorem Emits.congr {f g : writer → Option writer} {T : extractor → Int → Option (List String)}
    (h : Emits f T) (e : ∀ w, g w = f w) : Emits g T :=
  fun w => (e w).trans (h w)


theorem emits_line (format : String) (args : List Value) :
    Emits (fun w => w.line format args)
      (fun _ n => if n < 0 then none else some (ln n (Sprintf format args))) := by
  intro w
  by_cases h : w.indent < 0
  · simp [line_none, h]
  · have h' : 0 ≤ w.indent := by omega
    simp [line_some, h, h']

theorem emits_pure : Emits (fun w => some w) (fun _ _ => some []) := by
  intro w; simp

theorem emits_bind {f g : writer → Option writer} {T U : extractor → Int → Option (List String)}
    (hf : Emits f T) (hg : Emits g U) :
    Emits (fun w => (f w).bind g) (fun x n => (T x n).bind fun a => (U x n).map fun b => a ++ b) := by
  intro w
  dsimp only
  rw [hf w]
  cases T w.extractor w.indent with
  | none => simp
  | some a =>
    simp [hg _]
    cases U w.extractor w.indent with
    | none => simp
    | some b => simp

theorem emits_foldlM {α : Type} (f : writer → α → Option writer)
    (T : α → extractor → Int → Option (List String))
    (hf : ∀ a, Emits (fun w => f w a) (T a)) (l : List α) :
    Emits (fun w => l.foldlM f w) (fun x n => texts (l.map fun a => T a x n)) := by
  induction l with
  | nil => intro w; simp [texts]
  | cons a l ih =>
    intro w
    have := emits_bind (hf a) ih w
    simpa [List.foldlM_cons, texts] using this

/-- A block: an opening line, a body one level deeper, a closing line. -/
theorem emits_block {f : writer → Option writer} {T : extractor → Int → Option (List String)}
    (hf : Emits f T) (fo : String) (ao : List Value) (fc : String) (ac : List Value) :
    Emits (fun w => ((w.begin fo ao).bind f).bind fun w => w.end_ fc ac)
      (fun x n => if n < 0 then none else
        (T x (n + 1)).map fun b => ln n (Sprintf fo ao) ++ b ++ ln n (Sprintf fc ac)) := by
  intro w
  by_cases h : w.indent < 0
  · simp [begin_none, h]
  · have h' : 0 ≤ w.indent := by omega
    simp [begin_some, h, h', hf _]
    cases T w.extractor (w.indent + 1) with
    | none => simp
    | some b =>
      simp
      rw [end_some (by simpa using by omega)]
      simp



/-! ## Evaluation of the format strings -/

theorem Sprintf_nil (s : String) (h : '%' ∉ s.data) : Sprintf s [] = s := by
  have : ∀ l : List Char, '%' ∉ l → SprintfAux l [] = l := by
    intro l
    induction l with
    | nil => intro _; rfl
    | cons c cs ih =>
      intro hc
      rw [List.mem_cons, not_or] at hc
      have h1 : ¬ c = '%' := fun e => hc.1 e.symm
      rw [SprintfAux.eq_def]
      simp [h1, ih hc.2]
  simp [Sprintf, this s.data h]

theorem Sprintf_case (x : String) : Sprintf "case %s:" [.str x] = "case " ++ x ++ ":" := by
  simp [Sprintf, SprintfAux, fmtVerb, fmtExtra, String.ext_iff, String.data_append]

theorem Sprintf_caseStar (x : String) : Sprintf "case *%s:" [.str x] = "case *" ++ x ++ ":" := by
  simp [Sprintf, SprintfAux, fmtVerb, fmtExtra, String.ext_iff, String.data_append]

theorem Sprintf_callRef (x : String) :
    Sprintf "\t_%s(ec, field.Selections, &it)" [.str x]
      = "\t_" ++ x ++ "(ec, field.Selections, &it)" := by
  simp [Sprintf, SprintfAux, fmtVerb, fmtExtra, String.ext_iff, String.data_append]

theorem Sprintf_callIt (x : String) :
    Sprintf "\t_%s(ec, field.Selections, it)" [.str x]
      = "\t_" ++ x ++ "(ec, field.Selections, it)" := by
  simp [Sprintf, SprintfAux, fmtVerb, fmtExtra, String.ext_iff, String.data_append]

theorem Sprintf_basic (u x : String) :
    Sprintf "ec.json.%s(%s)" [.str u, .str x] = "ec.json." ++ u ++ "(" ++ x ++ ")" := by
  simp [Sprintf, SprintfAux, fmtVerb, fmtExtra, String.ext_iff, String.data_append]

theorem Sprintf_plain (l x : String) :
    Sprintf "_%s(ec, field.Selections, %s)" [.str l, .str x]
      = "_" ++ l ++ "(ec, field.Selections, " ++ x ++ ")" := by
  simp [Sprintf, SprintfAux, fmtVerb, fmtExtra, String.ext_iff, String.data_append]

theorem Sprintf_switch (x : String) :
    Sprintf "switch it := %s.(type) \x7b" [.str x] = "switch it := " ++ x ++ ".(type) \x7b" := by
  simp [Sprintf, SprintfAux, fmtVerb, fmtExtra, String.ext_iff, String.data_append]

theorem Sprintf_panic :
    Sprintf "\tpanic(fmt.Errorf(\"unexpected type %%T\", it))" []
      = "\tpanic(fmt.Errorf(\"unexpected type %T\", it))" := by
  rfl

theorem Sprintf_ifNil (x : String) :
    Sprintf "if %s == nil \x7b" [.str x] = "if " ++ x ++ " == nil \x7b" := by
  simp [Sprintf, SprintfAux, fmtVerb, fmtExtra, String.ext_iff, String.data_append]

theorem Sprintf_for (x : String) :
    Sprintf "for _, val := range %s \x7b" [.str x] = "for _, val := range " ++ x ++ " \x7b" := by
  simp [Sprintf, SprintfAux, fmtVerb, fmtExtra, String.ext_iff, String.data_append]

theorem emits_writeImplementor (E : Env) (i : kind) :
    Emits (fun w => writeImplementor E w i) (fun _ n =>
      if n < 0 then none else
        (lcFirst E i.GraphQLName).map fun l =>
          ln n ("case " ++ i.Local ++ ":")
            ++ ln n ("\t_" ++ l ++ "(ec, field.Selections, &it)")
            ++ ln n ("case *" ++ i.Local ++ ":")
            ++ ln n ("\t_" ++ l ++ "(ec, field.Selections, it)")) := by
  intro w
  by_cases h : w.indent < 0
  · simp [writeImplementor, line_none, h]
  · have h' : 0 ≤ w.indent := by omega
    cases hl : lcFirst E i.GraphQLName with
    | none => simp [writeImplementor, hl, line_some, h']
    | some l =>
      simp [writeImplementor, hl, line_some, h', h, Sprintf_case, Sprintf_caseStar,
        Sprintf_callRef, Sprintf_callIt]


/-- The type switch written for a polymorphic kind. -/
theorem emits_leaf_switch (E : Env) (t : kind) (val : String) (isPtr : Bool)
    (hB : t.Basic = false) (hI : t.Implementors ≠ []) :
    Emits (fun w => doWriteJsonType E t w val [] isPtr) (fun _ n =>
      if n < 0 then none else
        (texts (t.Implementors.map fun i => (lcFirst E i.GraphQLName).map fun l =>
            ln n ("case " ++ i.Local ++ ":")
              ++ ln n ("\t_" ++ l ++ "(ec, field.Selections, &it)")
              ++ ln n ("case *" ++ i.Local ++ ":")
              ++ ln n ("\t_" ++ l ++ "(ec, field.Selections, it)"))).map fun cs =>
          ln n ("switch it := " ++ val ++ ".(type) \x7b")
            ++ ln n "case nil:" ++ ln n "\tec.json.Null()" ++ cs
            ++ ln n "default:"
            ++ ln n "\tpanic(fmt.Errorf(\"unexpected type %T\", it))"
            ++ ln n "\x7d") := by
  intro w
  have hlen : 0 < t.Implementors.length := List.length_pos.mpr hI
  by_cases h : w.indent < 0
  · simp [doWriteJsonType, line_none, h, hB, hlen]
  · have h' : 0 ≤ w.indent := by omega
    simp only [doWriteJsonType, hB, hlen, h]
    simp [line_some, h', Sprintf_nil, Sprintf_switch, Sprintf_panic]
    have := fun w => emits_foldlM (fun w i => writeImplementor E w i) _ (emits_writeImplementor E)
      t.Implementors w
    simp only [] at this
    rw [this]
    simp [h]
    cases texts _ with
    | none => simp
    | some cs => simp [line_some, h', Sprintf_nil, Sprintf_switch, Sprintf_panic]

/-- The single line written for a Basic kind. -/
theorem emits_leaf_basic (E : Env) (t : kind) (val : String) (isPtr : Bool)
    (hB : t.Basic = true) :
    Emits (fun w => doWriteJsonType E t w val [] isPtr) (fun _ n =>
      if n < 0 then none else
        (ucFirst E t.Name).map fun u =>
          ln n ("ec.json." ++ u ++ "(" ++ (if isPtr then "*" ++ val else val) ++ ")")) := by
  intro w
  by_cases h : w.indent < 0
  · simp [doWriteJsonType, line_none, h, hB]
  · have h' : 0 ≤ w.indent := by omega
    cases hu : ucFirst E t.Name with
    | none => simp [doWriteJsonType, hB, hu, h]
    | some u => simp [doWriteJsonType, hB, hu, line_some, h', h, Sprintf_basic]

/-- The single line written for a plain object kind. -/
theorem emits_leaf_plain (E : Env) (t : kind) (val : String) (isPtr : Bool)
    (hB : t.Basic = false) (hI : t.Implementors = []) :
    Emits (fun w => doWriteJsonType E t w val [] isPtr) (fun _ n =>
      if n < 0 then none else
        (lcFirst E t.GraphQLName).map fun l =>
          ln n ("_" ++ l ++ "(ec, field.Selections, "
            ++ (if isPtr then val else "&" ++ val) ++ ")")) := by
  intro w
  by_cases h : w.indent < 0
  · simp [doWriteJsonType, line_none, h, hB, hI]
  · have h' : 0 ≤ w.indent := by omega
    cases hu : lcFirst E t.GraphQLName with
    | none => simp [doWriteJsonType, hB, hu, hI, h]
    | some u =>
      cases isPtr <;> simp [doWriteJsonType, hB, hu, hI, line_some, h', h, Sprintf_plain]

/-! ## The type walker -/

/-- The guard written for an optional modifier: the nil branch, then the body one level
deeper in the else branch. -/
theorem emits_optional {f : writer → Option writer} {T : extractor → Int → Option (List String)}
    (hf : Emits f T) (val : String) :
    Emits (fun w => do
        let w ← w.begin "if %s == nil \x7b" [.str val]
        let w ← w.line "ec.json.Null()" []
        let w := { w with indent := w.indent - 1 }
        let w ← w.begin "\x7d else \x7b" []
        let w ← f w
        w.end_ "\x7d" [])
      (fun x n => if n < 0 then none else
        (T x (n + 1)).map fun body =>
          ln n ("if " ++ val ++ " == nil \x7b") ++ ln (n + 1) "ec.json.Null()"
            ++ ln n "\x7d else \x7b" ++ body ++ ln n "\x7d") := by
  intro w
  by_cases h : w.indent < 0
  · simp [begin_none, h]
  · have h' : 0 ≤ w.indent := by omega
    have h1 : 0 ≤ w.indent + 1 := by omega
    simp [begin_some, line_some, h, h', h1, hf _, Sprintf_nil, Sprintf_ifNil]
    cases T w.extractor (w.indent + 1) with
    | none => simp
    | some b =>
      simp
      rw [end_some (by simpa using by omega)]
      simp [Sprintf_nil]

/-- The loop written for a list modifier. -/
theorem emits_list {f : writer → Option writer} {T : extractor → Int → Option (List String)}
    (hf : Emits f T) (val : String) :
    Emits (fun w => do
        let w ← w.line "ec.json.BeginArray()" []
        let w ← w.begin "for _, val := range %s \x7b" [.str val]
        let w ← f w
        let w ← w.end_ "\x7d" []
        w.line "ec.json.EndArray()" [])
      (fun x n => if n < 0 then none else
        (T x (n + 1)).map fun body =>
          ln n "ec.json.BeginArray()" ++ ln n ("for _, val := range " ++ val ++ " \x7b")
            ++ body ++ ln n "\x7d" ++ ln n "ec.json.EndArray()") := by
  intro w
  by_cases h : w.indent < 0
  · simp [line_none, h]
  · have h' : 0 ≤ w.indent := by omega
    simp [begin_some, line_some, h, h', hf _, Sprintf_nil, Sprintf_for]
    cases T w.extractor (w.indent + 1) with
    | none => simp
    | some b =>
      simp
      rw [end_some (by simpa using by omega)]
      simp [Sprintf_nil, line_some, h']

theorem unfold_optional (E : Env) (t : kind) (w : writer) (val : String)
    (rest : List String) (isPtr : Bool) :
    doWriteJsonType E t w val (E.modPtr :: rest) isPtr = (do
        let w ← w.begin "if %s == nil \x7b" [.str val]
        let w ← w.line "ec.json.Null()" []
        let w := { w with indent := w.indent - 1 }
        let w ← w.begin "\x7d else \x7b" []
        let w ← doWriteJsonType E t w val rest true
        w.end_ "\x7d" []) := by
  simp [doWriteJsonType]

theorem unfold_list (E : Env) (t : kind) (w : writer) (val : String)
    (rest : List String) (isPtr : Bool) (h : E.modList ≠ E.modPtr) :
    doWriteJsonType E t w val (E.modList :: rest) isPtr = (do
        let w ← w.line "ec.json.BeginArray()" []
        let w ← w.begin "for _, val := range %s \x7b" [.str (if isPtr then "*" ++ val else val)]
        let w ← doWriteJsonType E t w "val" rest false
        let w ← w.end_ "\x7d" []
        w.line "ec.json.EndArray()" []) := by
  simp [doWriteJsonType, h]

theorem unfold_skip (E : Env) (t : kind) (w : writer) (val : String)
    (m : String) (rest : List String) (isPtr : Bool) (h1 : m ≠ E.modPtr) (h2 : m ≠ E.modList) :
    doWriteJsonType E t w val (m :: rest) isPtr = doWriteJsonType E t w val rest isPtr := by
  simp [doWriteJsonType, h1, h2]



/-- The type walker restores the indent and appends writes that depend on the indent
only. -/
theorem emits_doWriteJsonType (E : Env) (t : kind) (mods : List String) :
    ∀ (val : String) (isPtr : Bool),
      Emits (fun w => doWriteJsonType E t w val mods isPtr)
        (emitted fun w => doWriteJsonType E t w val mods isPtr) := by
  induction mods with
  | nil =>
    intro val isPtr
    cases hB : t.Basic with
    | true => exact (emits_leaf_basic E t val isPtr hB).self
    | false =>
      by_cases hI : t.Implementors = []
      · exact (emits_leaf_plain E t val isPtr hB hI).self
      · exact (emits_leaf_switch E t val isPtr hB hI).self
  | cons m rest ih =>
    intro val isPtr
    by_cases h1 : m = E.modPtr
    · subst h1
      exact Emits.self ((emits_optional (ih val true) val).congr
        fun w => unfold_optional E t w val rest isPtr)
    · by_cases h2 : m = E.modList
      · subst h2
        exact Emits.self ((emits_list (ih "val" false) _).congr
          fun w => unfold_list E t w val rest isPtr h1)
      · exact Emits.self ((ih val isPtr).congr
          fun w => unfold_skip E t w val m rest isPtr h1 h2)


/-! ## Counting the array tokens -/

theorem tabs_data (n : Int) : (tabs n).data = List.replicate n.toNat '\t' := by
  unfold tabs
  generalize n.toNat = k
  have : ∀ (l : List String) (a : String), (l.foldl (fun r s => r ++ s) a).data = a.data ++ l.flatMap String.data := by
    intro l
    induction l with
    | nil => simp
    | cons b l ih => intro a; simp [ih, String.data_append]
  simp [String.join, this]
  induction k with
  | zero => rfl
  | succ k ih => simp [List.replicate_succ, ih]


theorem ne_of_head {s t : String} (h : s.data.head? ≠ t.data.head?) : s ≠ t := by
  intro e; exact h (by rw [e])

theorem basic_ne (u x t : String) (hx : x ≠ "") (ht : '(' ∉ t.data) :
    "ec.json." ++ u ++ "(" ++ x ++ ")" ≠ "ec.json." ++ t ++ "()" := by
  intro e
  have e' := congrArg (fun s => s.data.reverse) e
  simp [String.data_append] at e'
  have hx' : x.data.reverse ≠ [] := by
    simpa [String.ext_iff] using hx
  cases hr : x.data.reverse with
  | nil => exact hx' hr
  | cons c r =>
    rw [hr] at e'
    simp at e'
    have e2 : (r ++ '(' :: u.data.reverse) ++ "ec.json.".data.reverse
        = t.data.reverse ++ "ec.json.".data.reverse := by simpa using e'.2
    have e3 := List.append_cancel_right e2
    have : '(' ∈ t.data.reverse := by rw [← e3]; simp
    exact ht (by simpa using this)
theorem tabs_ne (n : Int) (t : String) (c : Char) (ht : t.data.head? = some c) (hc : c ≠ '\t') :
    tabs n ≠ t := by
  apply ne_of_head
  rw [tabs_data, ht]
  cases n.toNat with
  | zero => simp
  | succ k => simp [List.replicate_succ]; exact fun e => hc e.symm

/-- A line whose text is not `t` does not contain the write `t`, for `t` one of the two
array tokens. -/
theorem count_ln (n : Int) (s t : String) (hs : s ≠ t)
    (ht : t = "ec.json.BeginArray()" ∨ t = "ec.json.EndArray()") :
    (ln n s).count t = 0 := by
  have h1 : tabs n ≠ t := by
    rcases ht with rfl | rfl <;> exact tabs_ne n _ 'e' rfl (by decide)
  have h2 : "\n" ≠ t := by
    rcases ht with rfl | rfl <;> decide
  simp [ln, List.count_cons, h1, h2, hs]

theorem count_ln_self (n : Int) (t : String)
    (ht : t = "ec.json.BeginArray()" ∨ t = "ec.json.EndArray()") :
    (ln n t).count t = 1 := by
  have h1 : tabs n ≠ t := by
    rcases ht with rfl | rfl <;> exact tabs_ne n _ 'e' rfl (by decide)
  have h2 : "\n" ≠ t := by
    rcases ht with rfl | rfl <;> decide
  simp [ln, List.count_cons, h1, h2]



theorem ucFirst_some (E : Env) (s : String) (h : s ≠ "") : ∃ u, ucFirst E s = some u := by
  unfold ucFirst
  cases hd : s.data with
  | nil => exact absurd (String.ext (by simpa using hd)) h
  | cons c cs => exact ⟨_, rfl⟩

theorem lcFirst_some (E : Env) (s : String) (h : s ≠ "") : ∃ l, lcFirst E s = some l := by
  unfold lcFirst
  cases hd : s.data with
  | nil => exact absurd (String.ext (by simpa using hd)) h
  | cons c cs => exact ⟨_, rfl⟩

theorem texts_count_zero (t : String) (os : List (Option (List String)))
    (h : ∀ o ∈ os, ∃ a, o = some a ∧ a.count t = 0) :
    ∃ out, texts os = some out ∧ out.count t = 0 := by
  induction os with
  | nil => exact ⟨[], rfl, rfl⟩
  | cons o os ih =>
    obtain ⟨a, rfl, ha⟩ := h o (by simp)
    obtain ⟨b, hb, hb0⟩ := ih fun o ho => h o (by simp [ho])
    exact ⟨a ++ b, by simp [texts, hb], by simp [ha, hb0]⟩

/-- The text written at the end of the chain contains no array token. -/
theorem leaf_counts (E : Env) (t : kind) (val : String) (isPtr : Bool) (x : extractor) (n : Int)
    (hval : val ≠ "") (hn : 0 ≤ n) (hok : namesOk t = true) (tok : String)
    (ht : tok = "ec.json.BeginArray()" ∨ tok = "ec.json.EndArray()") :
    ∃ out, emitted (fun w => doWriteJsonType E t w val [] isPtr) x n = some out
      ∧ out.count tok = 0 := by
  have hn' : ¬ n < 0 := by omega
  cases hB : t.Basic with
  | true =>
    obtain ⟨u, hu⟩ := ucFirst_some E t.Name (by simpa [namesOk, hB] using hok)
    rw [(emits_leaf_basic E t val isPtr hB).emitted_eq]
    refine ⟨_, by rw [if_neg hn', hu]; rfl, ?_⟩
    apply count_ln _ _ _ _ ht
    have hx : (if isPtr then "*" ++ val else val) ≠ "" := by
      cases isPtr
      · simpa using hval
      · simp [String.ext_iff, String.data_append]
    rcases ht with rfl | rfl
    · exact basic_ne u _ "BeginArray" hx (by decide)
    · exact basic_ne u _ "EndArray" hx (by decide)
  | false =>
    by_cases hI : t.Implementors = []
    · obtain ⟨l, hl⟩ := lcFirst_some E t.GraphQLName (by simpa [namesOk, hB, hI] using hok)
      rw [(emits_leaf_plain E t val isPtr hB hI).emitted_eq]
      refine ⟨_, by rw [if_neg hn', hl]; rfl, ?_⟩
      apply count_ln _ _ _ _ ht
      rcases ht with rfl | rfl <;> simp [String.ext_iff, String.data_append]
    · rw [(emits_leaf_switch E t val isPtr hB hI).emitted_eq]
      have hlen : 0 < t.Implementors.length := List.length_pos.mpr hI
      have hall : ∀ i ∈ t.Implementors, i.GraphQLName ≠ "" := by
        simpa [namesOk, hB, hlen] using hok
      obtain ⟨cs, hcs, hcs0⟩ := texts_count_zero tok
        (t.Implementors.map fun i => (lcFirst E i.GraphQLName).map fun l =>
            ln n ("case " ++ i.Local ++ ":")
              ++ ln n ("\t_" ++ l ++ "(ec, field.Selections, &it)")
              ++ ln n ("case *" ++ i.Local ++ ":")
              ++ ln n ("\t_" ++ l ++ "(ec, field.Selections, it)")) (by
          intro o ho
          simp only [List.mem_map] at ho
          obtain ⟨i, hi, rfl⟩ := ho
          obtain ⟨l, hl⟩ := lcFirst_some E i.GraphQLName (hall i hi)
          refine ⟨_, by rw [hl]; rfl, ?_⟩
          simp only [List.count_append]
          rw [count_ln _ _ _ _ ht, count_ln _ _ _ _ ht, count_ln _ _ _ _ ht, count_ln _ _ _ _ ht]
          all_goals (rcases ht with rfl | rfl <;> simp [String.ext_iff, String.data_append]))
      refine ⟨_, by rw [if_neg hn', hcs]; rfl, ?_⟩
      simp only [List.count_append, hcs0]
      rw [count_ln _ _ _ _ ht, count_ln _ _ _ _ ht, count_ln _ _ _ _ ht, count_ln _ _ _ _ ht,
        count_ln _ _ _ _ ht, count_ln _ _ _ _ ht]
      all_goals (rcases ht with rfl | rfl <;> simp [String.ext_iff, String.data_append])



theorem emitted_optional (E : Env) (t : kind) (val : String) (rest : List String) (isPtr : Bool)
    (x : extractor) (n : Int) :
    emitted (fun w => doWriteJsonType E t w val (E.modPtr :: rest) isPtr) x n =
      if n < 0 then none else
        (emitted (fun w => doWriteJsonType E t w val rest true) x (n + 1)).map fun body =>
          ln n ("if " ++ val ++ " == nil \x7b") ++ ln (n + 1) "ec.json.Null()"
            ++ ln n "\x7d else \x7b" ++ body ++ ln n "\x7d" :=
  ((emits_optional (emits_doWriteJsonType E t rest val true) val).congr
    fun w => unfold_optional E t w val rest isPtr).emitted_eq x n

theorem emitted_list (E : Env) (h : E.modList ≠ E.modPtr) (t : kind) (val : String)
    (rest : List String) (isPtr : Bool) (x : extractor) (n : Int) :
    emitted (fun w => doWriteJsonType E t w val (E.modList :: rest) isPtr) x n =
      if n < 0 then none else
        (emitted (fun w => doWriteJsonType E t w "val" rest false) x (n + 1)).map fun body =>
          ln n "ec.json.BeginArray()"
            ++ ln n ("for _, val := range " ++ (if isPtr then "*" ++ val else val) ++ " \x7b")
            ++ body ++ ln n "\x7d" ++ ln n "ec.json.EndArray()" :=
  ((emits_list (emits_doWriteJsonType E t rest "val" false) _).congr
    fun w => unfold_list E t w val rest isPtr h).emitted_eq x n

/-- Along a chain of optional and list modifiers each array token is written once per
list modifier. -/
theorem walker_counts (E : Env) (hne : E.modList ≠ E.modPtr) (t : kind) (x : extractor)
    (hok : namesOk t = true) (tok : String)
    (ht : tok = "ec.json.BeginArray()" ∨ tok = "ec.json.EndArray()") (mods : List String)
    (hm : ∀ m ∈ mods, m = E.modPtr ∨ m = E.modList) :
    ∀ (val : String) (isPtr : Bool) (n : Int), val ≠ "" → 0 ≤ n →
      ∃ out, emitted (fun w => doWriteJsonType E t w val mods isPtr) x n = some out
        ∧ out.count tok = mods.count E.modList := by
  induction mods with
  | nil =>
    intro val isPtr n hval hn
    simpa using leaf_counts E t val isPtr x n hval hn hok tok ht
  | cons m rest ih =>
    intro val isPtr n hval hn
    have hn' : ¬ n < 0 := by omega
    have hrest : ∀ m ∈ rest, m = E.modPtr ∨ m = E.modList := fun m h => hm m (by simp [h])
    rcases hm m (by simp) with rfl | rfl
    · obtain ⟨body, hb, hc⟩ := ih hrest val true (n + 1) hval (by omega)
      refine ⟨_, by rw [emitted_optional, if_neg hn', hb]; rfl, ?_⟩
      simp only [List.count_append, hc]
      rw [count_ln _ _ _ _ ht, count_ln _ _ _ _ ht, count_ln _ _ _ _ ht, count_ln _ _ _ _ ht,
        List.count_cons_of_ne hne]
      · simp
      all_goals (rcases ht with rfl | rfl <;> simp [String.ext_iff, String.data_append])
    · obtain ⟨body, hb, hc⟩ := ih hrest "val" false (n + 1) (by decide) (by omega)
      refine ⟨_, by rw [emitted_list E hne, if_neg hn', hb]; rfl, ?_⟩
      simp only [List.count_append, hc, List.count_cons_self]
      rcases ht with rfl | rfl
      · rw [count_ln_self _ _ (Or.inl rfl), count_ln _ _ _ _ (Or.inl rfl),
          count_ln _ _ _ _ (Or.inl rfl), count_ln _ _ _ _ (Or.inl rfl)]
        · omega
        all_goals simp [String.ext_iff, String.data_append]
      · rw [count_ln_self _ _ (Or.inr rfl), count_ln _ _ _ _ (Or.inr rfl),
          count_ln _ _ _ _ (Or.inr rfl), count_ln _ _ _ _ (Or.inr rfl)]
        · omega
        all_goals simp [String.ext_iff, String.data_append]


/-! ## Counting the case labels -/


theorem isCaseLabel_tabs (n : Int) : isCaseLabel (tabs n) = false := by
  unfold isCaseLabel
  rw [tabs_data]
  cases n.toNat with
  | zero => rfl
  | succ k => simp [List.replicate_succ, List.isPrefixOf]

theorem countP_ln (n : Int) (s : String) :
    (ln n s).countP isCaseLabel = if isCaseLabel s then 1 else 0 := by
  have h2 : isCaseLabel "\n" = false := by decide
  simp [ln, List.countP_cons, isCaseLabel_tabs, h2]

theorem count_default_ln (n : Int) (s : String) :
    (ln n s).count "default:" = if s = "default:" then 1 else 0 := by
  have h1 : tabs n ≠ "default:" := tabs_ne n _ 'd' rfl (by decide)
  have h2 : "\n" ≠ "default:" := by decide
  simp [ln, List.count_cons, h1, h2]

theorem texts_countP (p : String → Bool) (k : Nat) (os : List (Option (List String)))
    (h : ∀ o ∈ os, ∃ a, o = some a ∧ a.countP p = k) :
    ∃ out, texts os = some out ∧ out.countP p = k * os.length := by
  induction os with
  | nil => exact ⟨[], rfl, by simp⟩
  | cons o os ih =>
    obtain ⟨a, rfl, ha⟩ := h o (by simp)
    obtain ⟨b, hb, hb0⟩ := ih fun o ho => h o (by simp [ho])
    exact ⟨a ++ b, by simp [texts, hb], by simp [ha, hb0, Nat.mul_succ, Nat.add_comm]⟩



/-! ## The resolver contract -/

theorem Sprintf_opName (a b : String) : Sprintf "%s_%s(" [.str a, .str b] = a ++ "_" ++ b ++ "(" := by
  simp [Sprintf, SprintfAux, fmtVerb, fmtExtra, String.ext_iff, String.data_append]

theorem Sprintf_it (a : String) : Sprintf ", it *%s" [.str a] = ", it *" ++ a := by
  simp [Sprintf, SprintfAux, fmtVerb, fmtExtra, String.ext_iff, String.data_append]

theorem Sprintf_param (a b : String) : Sprintf ", %s %s" [.str a, .str b] = ", " ++ a ++ " " ++ b := by
  simp [Sprintf, SprintfAux, fmtVerb, fmtExtra, String.ext_iff, String.data_append]

theorem Sprintf_result (a : String) : Sprintf ") (%s, error)" [.str a] = ") (" ++ a ++ ", error)" := by
  simp [Sprintf, SprintfAux, fmtVerb, fmtExtra, String.ext_iff, String.data_append]

theorem foldl_writeInterfaceArg (args : List FieldArgument) (w : writer) :
    args.foldl writeInterfaceArg w =
      { w with out := w.out ++ args.map fun arg => ", " ++ arg.Name ++ " " ++ arg.Type_.Local } := by
  induction args generalizing w with
  | nil => simp
  | cons a as ih => simp [ih, writeInterfaceArg, emit, Sprintf_param]

theorem texts_map_some {α : Type} (g : α → List String) (l : List α) :
    texts (l.map fun a => some (g a)) = some (l.flatMap g) := by
  induction l with
  | nil => rfl
  | cons a l ih => simp [texts, ih]

/-- Writes of `writeInterface` for one field: nothing for a bound field, the operation
line for an unbound one. -/
theorem emits_writeInterfaceField (o : object) (f : Field) :
    Emits (fun w => w.writeInterfaceField o f) (fun _ n =>
      if f.VarName = "" ∧ f.MethodName = "" then
        (if n < 0 then none else some (specOperation n o f))
      else some []) := by
  intro w
  by_cases hb : f.VarName = "" ∧ f.MethodName = ""
  · have hb' : ¬ (f.VarName ≠ "" ∨ f.MethodName ≠ "") := by simpa [not_or] using hb
    by_cases h : w.indent < 0
    · simp [writeInterfaceField, hb, emitIndent, stringsRepeat, h]
    · cases hr : o.Root <;>
        simp [writeInterfaceField, hb, emitIndent, stringsRepeat, h, emit, lf, hr,
          foldl_writeInterfaceArg, specOperation, tabs, Sprintf_opName, Sprintf_it,
          Sprintf_result, Sprintf_nil]
  · have hb' : f.VarName ≠ "" ∨ f.MethodName ≠ "" := by
      by_contra hc
      simp only [not_or, not_not] at hc
      exact hb hc
    simp [writeInterfaceField, hb, hb']

theorem emits_writeInterface :
    Emits (fun w => w.writeInterface) (fun x n =>
      if n < 0 then none else
        some (ln n "type Resolvers interface \x7b"
          ++ (x.Objects.flatMap fun o => o.Fields.flatMap fun f =>
                if f.VarName = "" ∧ f.MethodName = "" then specOperation (n + 1) o f else [])
          ++ ln n "\x7d" ++ ["\n"])) := by
  intro w
  by_cases h : w.indent < 0
  · simp [writeInterface, begin_none, h]
  · have h' : 0 ≤ w.indent := by omega
    have h1 : ¬ w.indent + 1 < 0 := by omega
    have hloop := emits_foldlM (fun (w : writer) (o : object) =>
        o.Fields.foldlM (fun w f => w.writeInterfaceField o f) w) _
      (fun o => emits_foldlM (fun w f => w.writeInterfaceField o f) _
        (fun f => emits_writeInterfaceField o f) o.Fields) w.extractor.Objects
    simp only [writeInterface, begin_some h', Option.bind_eq_bind, Option.some_bind]
    have hl := hloop { w with out := w.out ++ ln w.indent (Sprintf "type Resolvers interface \x7b" []),
                              indent := w.indent + 1 }
    dsimp only at hl
    rw [hl]
    simp only [h1, if_false]
    have e1 : ∀ o : object, texts (o.Fields.map fun f =>
        if f.VarName = "" ∧ f.MethodName = "" then some (specOperation (w.indent + 1) o f)
        else some []) = some (o.Fields.flatMap fun f =>
          if f.VarName = "" ∧ f.MethodName = "" then specOperation (w.indent + 1) o f else []) := by
      intro o
      rw [← texts_map_some]
      congr 1
      apply List.map_congr_left
      intro f _
      split <;> rfl
    simp only [e1, texts_map_some]
    simp [lf, h, Sprintf_nil]
    rw [end_some (by simpa using by omega)]
    simp [Sprintf_nil]



/-! ## Resolution of a field -/

theorem Sprintf_varArg (i : Int) (x : String) :
    Sprintf "var arg%d %s" [.int i, .str x] = "var arg" ++ Itoa i ++ " " ++ x := by
  simp [Sprintf, SprintfAux, fmtVerb, fmtExtra, String.ext_iff, String.data_append]

theorem Sprintf_lookup (x : String) :
    Sprintf "if tmp, ok := field.Args[%s]; ok \x7b" [.str x]
      = "if tmp, ok := field.Args[" ++ x ++ "]; ok \x7b" := by
  simp [Sprintf, SprintfAux, fmtVerb, fmtExtra, String.ext_iff, String.data_append]

theorem Sprintf_tmp2 (x : String) :
    Sprintf "\ttmp2 := tmp.(%s)" [.str x] = "\ttmp2 := tmp.(" ++ x ++ ")" := by
  simp [Sprintf, SprintfAux, fmtVerb, fmtExtra, String.ext_iff, String.data_append]

theorem Sprintf_bindRef (i : Int) :
    Sprintf "\targ%d = &tmp2" [.int i] = "\targ" ++ Itoa i ++ " = &tmp2" := by
  simp [Sprintf, SprintfAux, fmtVerb, fmtExtra, String.ext_iff, String.data_append]

theorem Sprintf_bindDirect (i : Int) (x : String) :
    Sprintf "\targ%d = tmp.(%s)" [.int i, .str x] = "\targ" ++ Itoa i ++ " = tmp.(" ++ x ++ ")" := by
  simp [Sprintf, SprintfAux, fmtVerb, fmtExtra, String.ext_iff, String.data_append]

theorem Sprintf_unpack (x : String) :
    Sprintf "err := unpackComplexArg(&arg1, field.Args[%s])" [.str x]
      = "err := unpackComplexArg(&arg1, field.Args[" ++ x ++ "])" := by
  simp [Sprintf, SprintfAux, fmtVerb, fmtExtra, String.ext_iff, String.data_append]

theorem Sprintf_resVar (x : String) : Sprintf "res := %s" [.str x] = "res := " ++ x := by
  simp [Sprintf, SprintfAux, fmtVerb, fmtExtra, String.ext_iff, String.data_append]

theorem Sprintf_resCall (m a : String) :
    Sprintf "res := %s(%s)" [.str m, .str a] = "res := " ++ m ++ "(" ++ a ++ ")" := by
  simp [Sprintf, SprintfAux, fmtVerb, fmtExtra, String.ext_iff, String.data_append]

theorem Sprintf_resErrCall (m a : String) :
    Sprintf "res, err := %s(%s)" [.str m, .str a] = "res, err := " ++ m ++ "(" ++ a ++ ")" := by
  simp [Sprintf, SprintfAux, fmtVerb, fmtExtra, String.ext_iff, String.data_append]

theorem Sprintf_resolver (a b : String) :
    Sprintf "ec.resolvers.%s_%s" [.str a, .str b] = "ec.resolvers." ++ a ++ "_" ++ b := by
  simp [Sprintf, SprintfAux, fmtVerb, fmtExtra, String.ext_iff, String.data_append]

/-- Writes of `writeArgs` for the argument `arg` at position `i`. -/
theorem emits_writeArg (E : Env) (i : Nat) (arg : FieldArgument) :
    Emits (fun w => w.writeArg E i arg) (fun _ n =>
      if n < 0 then none else
        some (ln n ("var arg" ++ Itoa i ++ " " ++ arg.Type_.Local)
          ++ (if arg.Type_.Basic then
                ln n ("if tmp, ok := field.Args[" ++ Quote E arg.Name ++ "]; ok \x7b")
                  ++ (if arg.Type_.IsPtr E then
                        ln n ("\ttmp2 := tmp.(" ++ arg.Type_.Name ++ ")")
                          ++ ln n ("\targ" ++ Itoa i ++ " = &tmp2")
                      else ln n ("\targ" ++ Itoa i ++ " = tmp.(" ++ arg.Type_.Name ++ ")"))
                  ++ ln n "\x7d"
              else
                ln n ("err := unpackComplexArg(&arg1, field.Args[" ++ Quote E arg.Name ++ "])")
                  ++ ln n "if err != nil \x7b"
                  ++ ln n "\tec.Error(err)"
                  ++ ln n "\x7d"))) := by
  intro w
  by_cases h : w.indent < 0
  · simp [writeArg, line_none, h]
  · have h' : 0 ≤ w.indent := by omega
    cases hB : arg.Type_.Basic <;> cases hP : arg.Type_.IsPtr E <;>
      simp [writeArg, line_some, h, h', hB, hP, Sprintf_nil, Sprintf_varArg, Sprintf_lookup,
        Sprintf_tmp2, Sprintf_bindRef, Sprintf_bindDirect, Sprintf_unpack]

/-- The argument-binding block restores the indent. -/
theorem emits_writeArgs (E : Env) (f : Field) :
    Emits (fun w => w.writeArgs E f) (emitted fun w => w.writeArgs E f) :=
  Emits.self (emits_foldlM (fun (w : writer) (ia : Nat × FieldArgument) => w.writeArg E ia.1 ia.2) _
    (fun ia => emits_writeArg E ia.1 ia.2) f.Args.enum)

theorem emits_writeJsonType (E : Env) (t : kind) (val : String) :
    Emits (fun w => w.writeJsonType E t val) (emitted fun w => w.writeJsonType E t val) :=
  emits_doWriteJsonType E t t.Modifiers val false

/-- The block is written whenever the indent is not negative. -/
theorem emitted_writeArgs_isSome (E : Env) (f : Field) (x : extractor) (n : Int) (hn : 0 ≤ n) :
    ∃ args, emitted (fun w => w.writeArgs E f) x n = some args := by
  have hn' : ¬ n < 0 := by omega
  have e : emitted (fun w => w.writeArgs E f) x n = _ :=
    (emits_foldlM (fun (w : writer) (ia : Nat × FieldArgument) => w.writeArg E ia.1 ia.2) _
      (fun ia => emits_writeArg E ia.1 ia.2) f.Args.enum).emitted_eq x n
  rw [e]
  simp only [hn', if_false]
  exact ⟨_, texts_map_some _ _⟩



/-- Writes of `writeEvaluateMethod`: the argument-binding block, the call, and the error
branch unless `NoErr` is set. -/
theorem emits_writeEvaluateMethod (E : Env) (o : object) (f : Field) :
    Emits (fun w => w.writeEvaluateMethod E o f) (fun x n =>
      if n < 0 then none else
        (emitted (fun w => w.writeArgs E f) x n).map fun args =>
          args ++ (
            if f.NoErr then
              ln n ("res := "
                ++ (if f.MethodName ≠ "" then f.MethodName
                    else "ec.resolvers." ++ o.Name ++ "_" ++ f.GraphQLName)
                ++ "(" ++ getFuncArgs o f ++ ")")
            else
              ln n ("res, err := "
                ++ (if f.MethodName ≠ "" then f.MethodName
                    else "ec.resolvers." ++ o.Name ++ "_" ++ f.GraphQLName)
                ++ "(" ++ getFuncArgs o f ++ ")")
              ++ ln n "if err != nil \x7b"
              ++ ln n "\tec.Error(err)"
              ++ ln n "\tcontinue"
              ++ ln n "\x7d")) := by
  intro w
  have ha := emits_writeArgs E f w
  dsimp only at ha
  by_cases h : w.indent < 0
  · simp only [writeEvaluateMethod, h, if_true, Option.map_none']
    rw [ha]
    cases emitted (fun w => w.writeArgs E f) w.extractor w.indent with
    | none => simp
    | some args => cases f.NoErr <;> simp [line_none, h]
  · have h' : 0 ≤ w.indent := by omega
    simp only [writeEvaluateMethod, h, if_false]
    rw [ha]
    cases emitted (fun w => w.writeArgs E f) w.extractor w.indent with
    | none => simp
    | some args =>
      cases f.NoErr <;>
        simp [line_some, h', Sprintf_nil, Sprintf_resCall, Sprintf_resErrCall, Sprintf_resolver]

/-- Writes of `writeObjectResolver` for one field: the case label, the key, the
resolution code, the serialization code, `continue`. -/
theorem emits_writeObjectResolverField (E : Env) (o : object) (f : Field) :
    Emits (fun w => w.writeObjectResolverField E o f) (fun x n =>
      if n < 0 then none else
        (texts [
          (if f.VarName ≠ "" then some (ln (n + 1) ("res := " ++ f.VarName))
           else emitted (fun w => w.writeEvaluateMethod E o f) x (n + 1)),
          emitted (fun w => w.writeJsonType E f.Type_ "res") x (n + 1)]).map fun body =>
        ln n ("case " ++ Quote E f.GraphQLName ++ ":")
          ++ ln (n + 1) "ec.json.ObjectKey(field.Alias)"
          ++ body
          ++ ln (n + 1) "continue"
          ++ ln n "") := by
  intro w
  by_cases h : w.indent < 0
  · simp [writeObjectResolverField, begin_none, h]
  · have h' : 0 ≤ w.indent := by omega
    have h1 : 0 ≤ w.indent + 1 := by omega
    have hj := fun w => emits_writeJsonType E f.Type_ "res" w
    have hm := fun w => (emits_writeEvaluateMethod E o f).self w
    dsimp only at hj hm
    by_cases hv : f.VarName = ""
    · simp only [writeObjectResolverField, begin_some h', Option.bind_eq_bind, Option.some_bind,
        h, if_false, hv, ne_eq, not_true_eq_false, texts]
      rw [line_some (by simpa using h1), Option.some_bind, hm]
      cases emitted (fun w => w.writeEvaluateMethod E o f) w.extractor (w.indent + 1) with
      | none => simp
      | some ms =>
        simp
        rw [hj]
        cases emitted (fun w => w.writeJsonType E f.Type_ "res") w.extractor (w.indent + 1) with
        | none => simp
        | some js =>
          simp
          rw [line_some (by simpa using h1)]
          simp
          rw [end_some (by simpa using by omega)]
          simp [Sprintf_nil, Sprintf_case]
    · simp only [writeObjectResolverField, begin_some h', Option.bind_eq_bind, Option.some_bind,
        h, if_false, hv, ne_eq, not_false_eq_true, if_true, texts, writeEvaluateVar]
      rw [line_some (by simpa using h1), Option.some_bind, line_some (by simpa using h1),
        Option.some_bind, hj]
      cases emitted (fun w => w.writeJsonType E f.Type_ "res") w.extractor (w.indent + 1) with
      | none => simp
      | some js =>
        simp
        rw [line_some (by simpa using h1)]
        simp
        rw [end_some (by simpa using by omega)]
        simp [Sprintf_nil, Sprintf_case, Sprintf_resVar]



/-! ## Imports and satisfies lists -/

theorem Sprintf_alias (a b : String) : Sprintf "%s %s" [.str a, .str b] = a ++ " " ++ b := by
  simp [Sprintf, SprintfAux, fmtVerb, fmtExtra, String.ext_iff, String.data_append]

theorem Sprintf_satisfies (a b : String) :
    Sprintf "%sSatisfies = []string\x7b%s\x7d" [.str a, .str b]
      = a ++ "Satisfies = []string\x7b" ++ b ++ "\x7d" := by
  simp [Sprintf, SprintfAux, fmtVerb, fmtExtra, String.ext_iff, String.data_append]

/-- Writes of `writeImports` for one entry of the map. -/
theorem emits_writeImport (E : Env) (local_ pkg : String) :
    Emits (fun w => w.writeImport E local_ pkg) (fun _ n =>
      if n < 0 then none else
        some (ln n (if local_ = filepathBase pkg then Sprintf (Quote E pkg) []
                    else local_ ++ " " ++ Quote E pkg))) := by
  intro w
  by_cases h : w.indent < 0
  · by_cases hl : local_ = filepathBase pkg <;> simp [writeImport, line_none, h, hl]
  · have h' : 0 ≤ w.indent := by omega
    by_cases hl : local_ = filepathBase pkg <;>
      simp [writeImport, line_some, h, h', hl, Sprintf_alias]

/-- A block `begin`, loop over a list, `end`, line feed, whose loop body writes for every
element a text that exists at every non-negative indent. -/
theorem emits_wrapped {α : Type} (f : writer → α → Option writer)
    (T : α → Int → Option (List String)) (hf : ∀ a, Emits (fun w => f w a) (fun _ n => T a n))
    (l : extractor → List α) (fo fc : String) :
    Emits (fun w => do
        let w ← w.begin fo []
        let w ← (l w.extractor).foldlM f w
        let w ← w.end_ fc []
        pure w.lf)
      (fun x n => if n < 0 then none else
        (texts ((l x).map fun a => T a (n + 1))).map fun body =>
          ln n (Sprintf fo []) ++ body ++ ln n (Sprintf fc []) ++ ["\n"]) := by
  intro w
  by_cases h : w.indent < 0
  · simp [begin_none, h]
  · have h' : 0 ≤ w.indent := by omega
    have hloop := emits_foldlM f (fun a _ n => T a n) hf (l w.extractor)
      { w with out := w.out ++ ln w.indent (Sprintf fo []), indent := w.indent + 1 }
    dsimp only at hloop
    simp only [begin_some h', Option.bind_eq_bind, Option.some_bind, h, if_false]
    rw [hloop]
    cases texts ((l w.extractor).map fun a => T a (w.indent + 1)) with
    | none => simp
    | some body =>
      simp
      rw [end_some (by simpa using by omega)]
      simp [lf]

theorem emits_writeImports (E : Env) :
    Emits (fun w => w.writeImports E) (fun x n =>
      if n < 0 then none else
        some (ln n "import ("
          ++ (x.Imports.flatMap fun lp =>
                ln (n + 1) (if lp.1 = filepathBase lp.2 then Sprintf (Quote E lp.2) []
                            else lp.1 ++ " " ++ Quote E lp.2))
          ++ ln n ")" ++ ["\n"])) := by
  intro w
  refine (emits_wrapped (fun w (lp : String × String) => w.writeImport E lp.1 lp.2) _
    (fun lp => emits_writeImport E lp.1 lp.2) (fun x => x.Imports) "import (" ")" w).trans ?_
  dsimp only
  by_cases h : w.indent < 0
  · simp [h]
  · have h1 : ¬ w.indent + 1 < 0 := by omega
    simp only [h, h1, if_false, texts_map_some]
    simp [Sprintf_nil]

theorem stringsJoin_cons (sep a : String) (l : List String) :
    stringsJoin (a :: l) sep = l.foldl (fun acc s => acc ++ (sep ++ s)) a := by
  have hgo : ∀ (l : List String) (a : String),
      String.intercalate.go a sep l = l.foldl (fun acc s => acc ++ (sep ++ s)) a := by
    intro l
    induction l with
    | nil => intro a; rfl
    | cons b l ih => intro a; simp [String.intercalate.go, ih, String.append_assoc]
  exact hgo l a

/-- The string built in `writeVars` is the join of the quoted names. -/
theorem satisfiesList_eq (E : Env) (o : object) :
    satisfiesList E o
      = stringsJoin (Quote E o.Type_.GraphQLName :: o.satisfies.map (Quote E)) ", " := by
  rw [stringsJoin_cons, satisfiesList, List.foldl_map]

/-- Writes of `writeVars` for one object. -/
theorem emits_writeVar (E : Env) (o : object) :
    Emits (fun w => w.writeVar E o) (fun _ n =>
      if n < 0 then none else
        (lcFirst E o.Type_.GraphQLName).map fun l =>
          ln n (l ++ "Satisfies = []string\x7b" ++ satisfiesList E o ++ "\x7d")) := by
  intro w
  by_cases h : w.indent < 0
  · simp [writeVar, line_none, h]
  · have h' : 0 ≤ w.indent := by omega
    cases hl : lcFirst E o.Type_.GraphQLName with
    | none => simp [writeVar, hl, h]
    | some l => simp [writeVar, hl, h, h', line_some, Sprintf_satisfies]

theorem emits_writeVars (E : Env) :
    Emits (fun w => w.writeVars E) (fun x n =>
      if n < 0 then none else
        (texts (x.Objects.map fun o =>
          (lcFirst E o.Type_.GraphQLName).map fun l =>
            ln (n + 1) (l ++ "Satisfies = []string\x7b" ++ satisfiesList E o ++ "\x7d"))).map
          fun body => ln n "var (" ++ body ++ ln n ")" ++ ["\n"]) := by
  intro w
  refine (emits_wrapped (fun w o => w.writeVar E o) _
    (fun o => emits_writeVar E o) (fun x => x.Objects) "var (" ")" w).trans ?_
  dsimp only
  by_cases h : w.indent < 0
  · simp [h]
  · have h1 : ¬ w.indent + 1 < 0 := by omega
    simp only [h, h1, if_false]
    simp [Sprintf_nil]



theorem lowerhex_ne_percent (n : Nat) : '%' ≠ lowerhex n := by
  unfold lowerhex
  by_cases h : n < 16
  · interval_cases n <;> decide
  · have : "0123456789abcdef".data.length ≤ n := by
      have : "0123456789abcdef".data.length = 16 := by decide
      omega
    rw [List.getD_eq_default _ _ this]
    decide

theorem quoteRune_no_percent (E : Env) (r : Char) (hr : r ≠ '%') : '%' ∉ quoteRune E r := by
  have hr' : '%' ≠ r := fun e => hr e.symm
  have e1 : '%' ∉ ['\\', r] := by
    intro hm
    rcases List.mem_cons.mp hm with h | h
    · exact absurd h (by decide)
    · exact hr' (List.mem_singleton.mp h)
  have e2 : '%' ∉ [r] := fun hm => hr' (List.mem_singleton.mp hm)
  have e3 : ∀ a b : Nat, '%' ∉ "\\x".data ++ [lowerhex a, lowerhex b] := by
    intro a b hm
    rcases List.mem_append.mp hm with h | h
    · exact absurd h (by decide)
    · rcases List.mem_cons.mp h with h | h
      · exact lowerhex_ne_percent _ h
      · exact lowerhex_ne_percent _ (List.mem_singleton.mp h)
  have e4 : ∀ (p : List Char) (l : List Nat), '%' ∉ p →
      '%' ∉ p ++ l.map fun s => lowerhex (r.val.toNat / 2 ^ s % 16) := by
    intro p l hp hm
    rcases List.mem_append.mp hm with h | h
    · exact hp h
    · obtain ⟨s, _, hs⟩ := List.mem_map.mp h
      exact lowerhex_ne_percent _ hs.symm
  have ite : ∀ (c : Prop) [Decidable c] (a b : List Char), '%' ∉ a → '%' ∉ b →
      '%' ∉ (if c then a else b) := by
    intro c _ a b ha hb
    split <;> assumption
  unfold quoteRune
  refine ite _ _ _ e1 (ite _ _ _ e2 (ite _ _ _ (by decide) (ite _ _ _ (by decide)
    (ite _ _ _ (by decide) (ite _ _ _ (by decide) (ite _ _ _ (by decide)
    (ite _ _ _ (by decide) (ite _ _ _ (by decide) (ite _ _ _ (e3 _ _)
    (ite _ _ _ (e4 _ _ (by decide)) (e4 _ _ (by decide))))))))))))

/-- A path without a percent sign is written as `strconv.Quote` gives it, also when it is
used as the format. -/
theorem Sprintf_Quote (E : Env) (pkg : String) (h : '%' ∉ pkg.data) :
    Sprintf (Quote E pkg) [] = Quote E pkg := by
  apply Sprintf_nil
  intro hm
  unfold Quote at hm
  rcases List.mem_cons.mp hm with hq | hm
  · exact absurd hq (by decide)
  · rcases List.mem_append.mp hm with hm | hq
    · obtain ⟨r, hr, hrq⟩ := List.mem_flatMap.mp hm
      exact quoteRune_no_percent E r (fun e => h (e ▸ hr)) hrq
    · exact absurd (List.mem_singleton.mp hq) (by decide)



/-! ## The statement at the end of the chain -/

theorem linesText_append (a b : List (Int × String)) :
    linesText (a ++ b) = linesText a ++ linesText b := by
  simp [linesText]

theorem linesText_cons (p : Int × String) (a : List (Int × String)) :
    linesText (p :: a) = ln p.1 p.2 ++ linesText a := by
  simp [linesText]

/-- The flag at the end of a chain is set exactly when the last modifier is the optional
one; for the empty chain it is the flag on entry. -/
theorem leafFlag_eq (E : Env) (mods : List String) (isPtr : Bool) :
    leafFlag E mods isPtr =
      if mods = [] then isPtr else decide (mods.getLast? = some E.modPtr) := by
  induction mods generalizing isPtr with
  | nil => rfl
  | cons m rest ih =>
    rw [leafFlag, ih]
    cases rest with
    | nil => simp
    | cons a l => simp [List.getLast?_cons_cons]

/-- Along a chain of optional and list modifiers the walker writes wrapper lines around
the text of the base case, which it reaches with the value name `val` once a list
modifier was met and with the flag set exactly when the last modifier is optional. -/
theorem walker_leaf (E : Env) (hne : E.modList ≠ E.modPtr) (t : kind) (x : extractor)
    (mods : List String) (hm : ∀ m ∈ mods, m = E.modPtr ∨ m = E.modList) :
    ∀ (val : String) (isPtr : Bool) (n : Int),
      ∃ pre post : List (Int × String),
        (∀ p ∈ pre ++ post, isWrapperText p.2 = true)
        ∧ emitted (fun w => doWriteJsonType E t w val mods isPtr) x n =
            if n < 0 then none else
              (emitted (fun w => doWriteJsonType E t w
                  (if E.modList ∈ mods then "val" else val) []
                  (leafFlag E mods isPtr)) x (n + mods.length)).map
                fun leaf => linesText pre ++ leaf ++ linesText post := by
  induction mods with
  | nil =>
    intro val isPtr n
    refine ⟨[], [], by simp, ?_⟩
    by_cases h : n < 0
    · simp only [h, if_true]
      cases hB : t.Basic with
      | true => rw [(emits_leaf_basic E t val isPtr hB).emitted_eq]; simp [h]
      | false =>
        by_cases hI : t.Implementors = []
        · rw [(emits_leaf_plain E t val isPtr hB hI).emitted_eq]; simp [h]
        · rw [(emits_leaf_switch E t val isPtr hB hI).emitted_eq]; simp [h]
    · simp [h, linesText, leafFlag]
  | cons m rest ih =>
    intro val isPtr n
    have hrest : ∀ m ∈ rest, m = E.modPtr ∨ m = E.modList := fun m h => hm m (by simp [h])
    have hlen : n + ((m :: rest).length : Int) = n + 1 + rest.length := by
      simp only [List.length_cons]; push_cast; omega
    rcases hm m (by simp) with rfl | rfl
    · obtain ⟨pre, post, hw, he⟩ := ih hrest val true (n + 1)
      refine ⟨(n, "if " ++ val ++ " == nil \x7b") :: (n + 1, "ec.json.Null()")
          :: (n, "\x7d else \x7b") :: pre, post ++ [(n, "\x7d")], ?_, ?_⟩
      · intro p hp
        simp only [List.cons_append, List.mem_cons, List.mem_append, List.mem_singleton,
          List.not_mem_nil, or_false] at hp
        rcases hp with rfl | rfl | rfl | hp | hp | rfl
        · simp [isWrapperText, String.data_append, List.isPrefixOf]
        · exact (by decide : isWrapperText "ec.json.Null()" = true)
        · exact (by decide : isWrapperText "\x7d else \x7b" = true)
        · exact hw p (by simp [hp])
        · exact hw p (by simp [hp])
        · exact (by decide : isWrapperText "\x7d" = true)
      · rw [emitted_optional, he, hlen]
        simp only [List.mem_cons, hne, false_or, leafFlag, decide_True]
        by_cases h : n < 0
        · simp [h]
        · have h1 : ¬ n + 1 < 0 := by omega
          simp only [h, h1, if_false]
          cases emitted _ x (n + 1 + rest.length) <;>
            simp [linesText_cons, linesText_append, linesText]
    · obtain ⟨pre, post, hw, he⟩ := ih hrest "val" false (n + 1)
      refine ⟨(n, "ec.json.BeginArray()")
          :: (n, "for _, val := range " ++ (if isPtr then "*" ++ val else val) ++ " \x7b") :: pre,
          post ++ [(n, "\x7d"), (n, "ec.json.EndArray()")], ?_, ?_⟩
      · intro p hp
        simp only [List.cons_append, List.mem_cons, List.mem_append, List.mem_singleton,
          List.not_mem_nil, or_false] at hp
        rcases hp with rfl | rfl | hp | hp | rfl | rfl
        · exact (by decide : isWrapperText "ec.json.BeginArray()" = true)
        · simp [isWrapperText, String.data_append, List.isPrefixOf]
        · exact hw p (by simp [hp])
        · exact hw p (by simp [hp])
        · exact (by decide : isWrapperText "\x7d" = true)
        · exact (by decide : isWrapperText "ec.json.EndArray()" = true)
      · rw [emitted_list E hne, he, hlen]
        have hd : decide (E.modList = E.modPtr) = false := by simp [hne]
        simp only [List.mem_cons, true_or, if_true, ite_self, leafFlag, hd]
        by_cases h : n < 0
        · simp [h]
        · have h1 : ¬ n + 1 < 0 := by omega
          simp only [h, h1, if_false]
          cases emitted _ x (n + 1 + rest.length) <;>
            simp [linesText_cons, linesText_append, linesText]



/-! ## The routine of an object -/

theorem Sprintf_func (a b : String) :
    Sprintf "func _%s(ec *executionContext, sel []query.Selection, it *%s) \x7b" [.str a, .str b]
      = "func _" ++ a ++ "(ec *executionContext, sel []query.Selection, it *" ++ b ++ ") \x7b" := by
  simp [Sprintf, SprintfAux, fmtVerb, fmtExtra, String.ext_iff, String.data_append]

theorem Sprintf_collect (a : String) :
    Sprintf "groupedFieldSet := ec.collectFields(sel, %sSatisfies, map[string]bool\x7b\x7d)"
        [.str a]
      = "groupedFieldSet := ec.collectFields(sel, " ++ a
          ++ "Satisfies, map[string]bool\x7b\x7d)" := by
  simp [Sprintf, SprintfAux, fmtVerb, fmtExtra, String.ext_iff, String.data_append]

/-- Writes of `writeObjectResolver`: the head of the routine, one block per field, the
end of the switch, the panic for an unknown field, the end of the loop and of the
routine. -/
theorem emits_writeObjectResolver (E : Env) (o : object) :
    Emits (fun w => w.writeObjectResolver E o) (fun x n =>
      if n < 0 then none else
        (lcFirst E o.Type_.GraphQLName).bind fun l =>
          (texts (o.Fields.map fun f =>
              emitted (fun w => w.writeObjectResolverField E o f) x (n + 2))).map fun blocks =>
            ln n "// nolint: gocyclo, errcheck, gas, goconst"
              ++ ln n ("func _" ++ l
                  ++ "(ec *executionContext, sel []query.Selection, it *" ++ o.Type_.Local
                  ++ ") \x7b")
              ++ ln (n + 1) ("groupedFieldSet := ec.collectFields(sel, " ++ l
                  ++ "Satisfies, map[string]bool\x7b\x7d)")
              ++ ln (n + 1) "ec.json.BeginObject()"
              ++ ln (n + 1) "for _, field := range groupedFieldSet \x7b"
              ++ ln (n + 2) "switch field.Name \x7b"
              ++ blocks
              ++ ln (n + 2) "\x7d"
              ++ ln (n + 2) "panic(\"unknown field \" + strconv.Quote(field.Name))"
              ++ ln (n + 1) "\x7d"
              ++ ln (n + 1) "ec.json.EndObject()"
              ++ ln n "\x7d"
              ++ ["\n"]) := by
  intro w
  by_cases h : w.indent < 0
  · simp [writeObjectResolver, seq, line_none, h]
  · have h' : 0 ≤ w.indent := by omega
    have h1 : 0 ≤ w.indent + 1 := by omega
    have h2 : 0 ≤ w.indent + 1 + 1 := by omega
    have e2 : w.indent + 1 + 1 = w.indent + 2 := by omega
    cases hl : lcFirst E o.Type_.GraphQLName with
    | none => simp [writeObjectResolver, seq, line_some, h', hl, h]
    | some l =>
      have hloop := fun w => emits_foldlM (fun w f => w.writeObjectResolverField E o f) _
        (fun f => (emits_writeObjectResolverField E o f).self) o.Fields w
      dsimp only at hloop
      simp only [writeObjectResolver, seq, List.foldlM_cons, List.foldlM_nil, hl, h, if_false,
        Option.bind_eq_bind, Option.some_bind, line_some h', Option.pure_def]
      rw [begin_some (by simpa using h')]
      simp only [Option.some_bind]
      rw [line_some (by simpa using h1)]
      simp only [Option.some_bind]
      rw [line_some (by simpa using h1)]
      simp only [Option.some_bind]
      rw [begin_some (by simpa using h1)]
      simp only [Option.some_bind]
      rw [line_some (by simpa using h2)]
      simp only [Option.some_bind]
      rw [hloop]
      simp only [e2]
      cases texts (o.Fields.map fun f =>
          emitted (fun w => w.writeObjectResolverField E o f) w.extractor (w.indent + 2)) with
      | none => simp
      | some blocks =>
        simp only [Option.map_some', Option.some_bind]
        rw [line_some (by simpa using by omega)]
        simp only [Option.some_bind]
        rw [line_some (by simpa using by omega)]
        simp only [Option.some_bind]
        rw [end_some (by simpa using by omega)]
        simp only [Option.some_bind]
        rw [line_some (by simpa using by omega)]
        simp only [Option.some_bind]
        rw [end_some (by simpa using by omega)]
        simp [lf, Sprintf_nil, Sprintf_func, Sprintf_collect]
        have e3 : w.indent + 2 - 1 = w.indent + 1 := by omega
        have e4 : w.indent + 2 - 1 - 1 = w.indent := by omega
        rw [e4, e3]
        exact ⟨rfl, rfl⟩



/-! ## Lines and their indents -/

theorem LinesFrom.empty (n : Int) : LinesFrom n [] := ⟨[], rfl, by simp⟩

theorem LinesFrom.concat {n : Int} {a b : List String} (ha : LinesFrom n a)
    (hb : LinesFrom n b) : LinesFrom n (a ++ b) := by
  obtain ⟨la, rfl, hla⟩ := ha
  obtain ⟨lb, rfl, hlb⟩ := hb
  refine ⟨la ++ lb, (linesText_append la lb).symm, ?_⟩
  intro p hp
  rcases List.mem_append.mp hp with h | h
  · exact hla p h
  · exact hlb p h

theorem LinesFrom.mono {n m : Int} {a : List String} (h : n ≤ m) (ha : LinesFrom m a) :
    LinesFrom n a := by
  obtain ⟨la, rfl, hla⟩ := ha
  exact ⟨la, rfl, fun p hp => ⟨le_trans h (hla p hp).1, (hla p hp).2⟩⟩

theorem LinesFrom.single {n k : Int} {s : String} (h : n ≤ k) (hs : okHead s = true) :
    LinesFrom n (ln k s) :=
  ⟨[(k, s)], by simp [linesText], by
    intro p hp
    rw [List.mem_singleton] at hp
    subst hp
    exact ⟨h, hs⟩⟩

theorem LinesFrom.of_texts {n : Int} (os : List (Option (List String)))
    (h : ∀ o ∈ os, ∃ a, o = some a ∧ LinesFrom n a) :
    ∃ out, texts os = some out ∧ LinesFrom n out := by
  induction os with
  | nil => exact ⟨[], rfl, LinesFrom.empty n⟩
  | cons o os ih =>
    obtain ⟨a, rfl, ha⟩ := h o (by simp)
    obtain ⟨b, hb, hb'⟩ := ih fun o ho => h o (by simp [ho])
    exact ⟨a ++ b, by simp [texts, hb], ha.concat hb'⟩

theorem okHead_ne_lf {s : String} (h : okHead s = true) : s ≠ "\n" := by
  rintro rfl
  exact absurd h (by decide)

theorem tabs_ne_lf (k : Int) : tabs k ≠ "\n" := tabs_ne k _ '\n' rfl (by decide)

theorem IndentedFrom.nil (n : Int) : IndentedFrom n [] := ⟨[], rfl, by simp⟩

theorem IndentedFrom.append {n : Int} {a b : List String} (ha : IndentedFrom n a)
    (hb : IndentedFrom n b) : IndentedFrom n (a ++ b) := by
  obtain ⟨la, rfl, hla⟩ := ha
  obtain ⟨lb, rfl, hlb⟩ := hb
  refine ⟨la ++ lb, (List.flatMap_append _ _ _).symm, ?_⟩
  intro k body hp
  rcases List.mem_append.mp hp with h | h
  · exact hla k body h
  · exact hlb k body h

theorem IndentedFrom.blank (n : Int) : IndentedFrom n ["\n"] :=
  ⟨[none], by simp [lineWrites], by simp⟩

theorem IndentedFrom.line {n k : Int} {body : List String} (h : n ≤ k) (hb : "\n" ∉ body) :
    IndentedFrom n (tabs k :: body ++ ["\n"]) :=
  ⟨[some (k, body)], by simp [lineWrites], by
    intro k' body' hm
    rw [List.mem_singleton] at hm
    cases hm
    exact ⟨h, hb⟩⟩



/-- The base case writes lines at the indent on entry. -/
theorem leaf_lines (E : Env) (t : kind) (x : extractor) (hok : namesOk t = true)
    (val : String) (isPtr : Bool) (n : Int) (hn : 0 ≤ n) :
    ∃ out, emitted (fun w => doWriteJsonType E t w val [] isPtr) x n = some out
      ∧ LinesFrom n out := by
  have hn' : ¬ n < 0 := by omega
  cases hB : t.Basic with
  | true =>
    obtain ⟨u, hu⟩ := ucFirst_some E t.Name (by simpa [namesOk, hB] using hok)
    rw [(emits_leaf_basic E t val isPtr hB).emitted_eq]
    refine ⟨_, by rw [if_neg hn', hu]; rfl, ?_⟩
    exact LinesFrom.single le_rfl (by simp [okHead, String.data_append])
  | false =>
    by_cases hI : t.Implementors = []
    · obtain ⟨l, hl⟩ := lcFirst_some E t.GraphQLName (by simpa [namesOk, hB, hI] using hok)
      rw [(emits_leaf_plain E t val isPtr hB hI).emitted_eq]
      refine ⟨_, by rw [if_neg hn', hl]; rfl, ?_⟩
      exact LinesFrom.single le_rfl (by simp [okHead, String.data_append])
    · rw [(emits_leaf_switch E t val isPtr hB hI).emitted_eq]
      have hlen : 0 < t.Implementors.length := List.length_pos.mpr hI
      have hall : ∀ i ∈ t.Implementors, i.GraphQLName ≠ "" := by
        simpa [namesOk, hB, hlen] using hok
      obtain ⟨cs, hcs, hcs'⟩ := @LinesFrom.of_texts n
        (t.Implementors.map fun i => (lcFirst E i.GraphQLName).map fun l =>
            ln n ("case " ++ i.Local ++ ":")
              ++ ln n ("\t_" ++ l ++ "(ec, field.Selections, &it)")
              ++ ln n ("case *" ++ i.Local ++ ":")
              ++ ln n ("\t_" ++ l ++ "(ec, field.Selections, it)")) (by
          intro o ho
          simp only [List.mem_map] at ho
          obtain ⟨i, hi, rfl⟩ := ho
          obtain ⟨l, hl⟩ := lcFirst_some E i.GraphQLName (hall i hi)
          refine ⟨_, by rw [hl]; rfl, ?_⟩
          exact (((LinesFrom.single le_rfl (by simp [okHead, String.data_append])).concat
            (LinesFrom.single le_rfl (by simp [okHead, String.data_append]))).concat
            (LinesFrom.single le_rfl (by simp [okHead, String.data_append]))).concat
            (LinesFrom.single le_rfl (by simp [okHead, String.data_append])))
      refine ⟨_, by rw [if_neg hn', hcs]; rfl, ?_⟩
      exact ((((((LinesFrom.single le_rfl (by simp [okHead, String.data_append])).concat
        (LinesFrom.single le_rfl (by decide))).concat
        (LinesFrom.single le_rfl (by decide))).concat hcs').concat
        (LinesFrom.single le_rfl (by decide))).concat
        (LinesFrom.single le_rfl (by decide))).concat
        (LinesFrom.single le_rfl (by decide))

theorem emitted_skip (E : Env) (t : kind) (val m : String) (rest : List String) (isPtr : Bool)
    (x : extractor) (n : Int) (h1 : m ≠ E.modPtr) (h2 : m ≠ E.modList) :
    emitted (fun w => doWriteJsonType E t w val (m :: rest) isPtr) x n
      = emitted (fun w => doWriteJsonType E t w val rest isPtr) x n := by
  simp [emitted, unfold_skip E t _ val m rest isPtr h1 h2]

/-- The walker writes lines at indents of at least the indent on entry, for every chain
of modifiers. -/
theorem walker_lines (E : Env) (t : kind) (x : extractor) (hok : namesOk t = true)
    (mods : List String) :
    ∀ (val : String) (isPtr : Bool) (n : Int), 0 ≤ n →
      ∃ out, emitted (fun w => doWriteJsonType E t w val mods isPtr) x n = some out
        ∧ LinesFrom n out := by
  induction mods with
  | nil => exact fun val isPtr n hn => leaf_lines E t x hok val isPtr n hn
  | cons m rest ih =>
    intro val isPtr n hn
    have hn' : ¬ n < 0 := by omega
    by_cases h1 : m = E.modPtr
    · subst h1
      obtain ⟨body, hb, hl⟩ := ih val true (n + 1) (by omega)
      refine ⟨_, by rw [emitted_optional, if_neg hn', hb]; rfl, ?_⟩
      exact ((((LinesFrom.single le_rfl (by simp [okHead, String.data_append])).concat
        (LinesFrom.single (by omega) (by decide))).concat
        (LinesFrom.single le_rfl (by decide))).concat
        (hl.mono (by omega))).concat
        (LinesFrom.single le_rfl (by decide))
    · by_cases h2 : m = E.modList
      · subst h2
        obtain ⟨body, hb, hl⟩ := ih "val" false (n + 1) (by omega)
        refine ⟨_, by rw [emitted_list E h1, if_neg hn', hb]; rfl, ?_⟩
        exact ((((LinesFrom.single le_rfl (by decide)).concat
          (LinesFrom.single le_rfl (by simp [okHead, String.data_append]))).concat
          (hl.mono (by omega))).concat
          (LinesFrom.single le_rfl (by decide))).concat
          (LinesFrom.single le_rfl (by decide))
      · rw [emitted_skip E t val m rest isPtr x n h1 h2]
        exact ih val isPtr n hn



/-- The argument-binding block is written as lines at the indent on entry. -/
theorem writeArgs_lines (E : Env) (f : Field) (x : extractor) (n : Int) (hn : 0 ≤ n) :
    ∃ out, emitted (fun w => w.writeArgs E f) x n = some out ∧ LinesFrom n out := by
  have hn' : ¬ n < 0 := by omega
  have e : emitted (fun w => w.writeArgs E f) x n = _ :=
    (emits_foldlM (fun (w : writer) (ia : Nat × FieldArgument) => w.writeArg E ia.1 ia.2) _
      (fun ia => emits_writeArg E ia.1 ia.2) f.Args.enum).emitted_eq x n
  rw [e]
  apply LinesFrom.of_texts
  intro o ho
  simp only [List.mem_map] at ho
  obtain ⟨ia, _, rfl⟩ := ho
  refine ⟨_, by rw [if_neg hn'], ?_⟩
  refine (LinesFrom.single le_rfl (by simp [okHead, String.data_append])).concat ?_
  cases ia.2.Type_.Basic
  · exact (((LinesFrom.single le_rfl (by simp [okHead, String.data_append])).concat
      (LinesFrom.single le_rfl (by decide))).concat
      (LinesFrom.single le_rfl (by decide))).concat
      (LinesFrom.single le_rfl (by decide))
  · refine ((LinesFrom.single le_rfl (by simp [okHead, String.data_append])).concat ?_).concat
      (LinesFrom.single le_rfl (by decide))
    cases ia.2.Type_.IsPtr E
    · exact LinesFrom.single le_rfl (by simp [okHead, String.data_append])
    · exact (LinesFrom.single le_rfl (by simp [okHead, String.data_append])).concat
        (LinesFrom.single le_rfl (by simp [okHead, String.data_append]))

/-- The code of a call is written as lines at the indent on entry. -/
theorem writeEvaluateMethod_lines (E : Env) (o : object) (f : Field) (x : extractor) (n : Int)
    (hn : 0 ≤ n) :
    ∃ out, emitted (fun w => w.writeEvaluateMethod E o f) x n = some out ∧ LinesFrom n out := by
  have hn' : ¬ n < 0 := by omega
  obtain ⟨args, ha, hl⟩ := writeArgs_lines E f x n hn
  rw [(emits_writeEvaluateMethod E o f).emitted_eq, if_neg hn', ha]
  refine ⟨_, rfl, hl.concat ?_⟩
  cases f.NoErr
  · exact ((((LinesFrom.single le_rfl (by simp [okHead, String.data_append])).concat
      (LinesFrom.single le_rfl (by decide))).concat
      (LinesFrom.single le_rfl (by decide))).concat
      (LinesFrom.single le_rfl (by decide))).concat
      (LinesFrom.single le_rfl (by decide))
  · exact LinesFrom.single le_rfl (by simp [okHead, String.data_append])

/-- The case block of a field is written as lines at indents of at least the indent on
entry. -/
theorem writeObjectResolverField_lines (E : Env) (o : object) (f : Field) (x : extractor)
    (n : Int) (hn : 0 ≤ n) (hok : namesOk f.Type_ = true) :
    ∃ out, emitted (fun w => w.writeObjectResolverField E o f) x n = some out
      ∧ LinesFrom n out := by
  have hn' : ¬ n < 0 := by omega
  obtain ⟨js, hj, hjl⟩ := walker_lines E f.Type_ x hok f.Type_.Modifiers "res" false (n + 1)
    (by omega)
  have hj' : emitted (fun w => w.writeJsonType E f.Type_ "res") x (n + 1) = some js := hj
  obtain ⟨ms, hm, hml⟩ := writeEvaluateMethod_lines E o f x (n + 1) (by omega)
  have hres : ∃ rs, (if f.VarName ≠ "" then some (ln (n + 1) ("res := " ++ f.VarName))
      else emitted (fun w => w.writeEvaluateMethod E o f) x (n + 1)) = some rs
      ∧ LinesFrom (n + 1) rs := by
    by_cases hv : f.VarName = ""
    · exact ⟨ms, by simp [hv, hm], hml⟩
    · exact ⟨ln (n + 1) ("res := " ++ f.VarName), by simp [hv],
        LinesFrom.single le_rfl (by simp [okHead, String.data_append])⟩
  obtain ⟨rs, hr, hrl⟩ := hres
  rw [(emits_writeObjectResolverField E o f).emitted_eq, if_neg hn', hr, hj']
  refine ⟨_, rfl, ?_⟩
  simp only [List.append_nil]
  exact ((((LinesFrom.single le_rfl (by simp [okHead, String.data_append])).concat
    (LinesFrom.single (by omega) (by decide))).concat
    ((hrl.concat hjl).mono (by omega))).concat
    (LinesFrom.single (by omega) (by decide))).concat
    (LinesFrom.single le_rfl (by decide))



/-- Lines whose texts satisfy `okHead` hold no write equal to a text that starts with the
letter `p`. -/
theorem LinesFrom.count_eq_zero {n : Int} {a : List String} (ha : LinesFrom n a) (t : String)
    (ht : t.data.head? = some 'p') : a.count t = 0 := by
  obtain ⟨ls, rfl, hls⟩ := ha
  induction ls with
  | nil => rfl
  | cons p ls ih =>
    rw [linesText_cons, List.count_append, ih fun q hq => hls q (by simp [hq])]
    have h1 : tabs p.1 ≠ t := tabs_ne p.1 t 'p' ht (by decide)
    have h2 : "\n" ≠ t := by
      intro e
      rw [← e] at ht
      exact absurd ht (by decide)
    have h3 : p.2 ≠ t := by
      intro e
      have := (hls p (by simp)).2
      rw [e] at this
      simp [okHead, ht] at this
    simp [ln, List.count_cons, h1, h2, h3]

/-- The case blocks of the fields of an object are written as lines, when the names read
for them are not empty. -/
theorem blocks_lines (E : Env) (o : object) (x : extractor) (n : Int) (hn : 0 ≤ n)
    (hok : ∀ f ∈ o.Fields, namesOk f.Type_ = true) :
    ∃ blocks, texts (o.Fields.map fun f =>
        emitted (fun w => w.writeObjectResolverField E o f) x n) = some blocks
      ∧ LinesFrom n blocks := by
  apply LinesFrom.of_texts
  intro b hb
  simp only [List.mem_map] at hb
  obtain ⟨f, hf, rfl⟩ := hb
  exact writeObjectResolverField_lines E o f x n hn (hok f hf)



theorem ne_lf_of_length {s : String} (h : 2 ≤ s.length) : s ≠ "\n" := by
  rintro rfl
  exact absurd h (by decide)

theorem LinesFrom.indented {n : Int} {a : List String} (ha : LinesFrom n a) :
    IndentedFrom n a := by
  obtain ⟨ls, rfl, hls⟩ := ha
  refine ⟨ls.map fun p => some (p.1, [p.2]), ?_, ?_⟩
  · simp [linesText, List.flatMap_map, lineWrites, ln]
  · intro k body hm
    simp only [List.mem_map, Option.some.injEq, Prod.mk.injEq] at hm
    obtain ⟨p, hp, rfl, rfl⟩ := hm
    refine ⟨(hls p hp).1, ?_⟩
    intro hmem
    exact okHead_ne_lf (hls p hp).2 (List.mem_singleton.mp hmem).symm

theorem IndentedFrom.of_ln {n k : Int} {s : String} (h : n ≤ k) (hs : s ≠ "\n") :
    IndentedFrom n (ln k s) := by
  have := @IndentedFrom.line _ _ [s] h (fun hm => hs (List.mem_singleton.mp hm).symm)
  simpa [ln] using this

theorem IndentedFrom.flatMap {α : Type} {n : Int} (l : List α) (g : α → List String)
    (h : ∀ a ∈ l, IndentedFrom n (g a)) : IndentedFrom n (l.flatMap g) := by
  induction l with
  | nil => exact IndentedFrom.nil n
  | cons a l ih =>
    rw [List.flatMap_cons]
    exact (h a (by simp)).append (ih fun b hb => h b (by simp [hb]))

theorem importLine_ne_lf (E : Env) (local_ pkg : String) :
    (if local_ = filepathBase pkg then Sprintf (Quote E pkg) []
      else local_ ++ " " ++ Quote E pkg) ≠ "\n" := by
  split
  · apply ne_of_head
    simp only [Sprintf, Quote]
    rw [SprintfAux.eq_def]
    simp
  · intro e
    have := congrArg (fun s => s.data.length) e
    simp [String.data_append, Quote] at this
    omega

theorem satisfiesLine_ne_lf (l s : String) :
    l ++ "Satisfies = []string\x7b" ++ s ++ "\x7d" ≠ "\n" := by
  apply ne_lf_of_length
  simp only [String.length_append]
  have : ("Satisfies = []string\x7b").length = 21 := by decide
  omega

theorem specOperation_indented (n k : Int) (o : object) (f : Field) (h : n ≤ k) :
    IndentedFrom n (specOperation k o f) := by
  have hb : "\n" ∉ [o.Name ++ "_" ++ f.GraphQLName ++ "(", "ctx context.Context"]
      ++ (if o.Root then [] else [", it *" ++ o.Type_.Local])
      ++ f.Args.map (fun arg => ", " ++ arg.Name ++ " " ++ arg.Type_.Local)
      ++ [") (" ++ f.Type_.Local ++ ", error)"] := by
    have h1 : "\n" ≠ o.Name ++ "_" ++ f.GraphQLName ++ "(" := by
      apply Ne.symm
      apply ne_lf_of_length
      simp only [String.length_append]
      have : ("_").length = 1 := by decide
      have : ("(").length = 1 := by decide
      omega
    have h2 : ∀ a : String, "\n" ≠ ", it *" ++ a := by
      intro a; simp [String.ext_iff, String.data_append]
    have h3 : ∀ a b : String, "\n" ≠ ", " ++ a ++ " " ++ b := by
      intro a b; simp [String.ext_iff, String.data_append]
    have h4 : ∀ a : String, "\n" ≠ ") (" ++ a ++ ", error)" := by
      intro a; simp [String.ext_iff, String.data_append]
    have h3' : ∀ a b : String, ¬ ", " ++ a ++ " " ++ b = "\n" := fun a b e => h3 a b e.symm
    cases o.Root <;> simp [h1, h2, h3, h4] <;> exact fun x _ => h3' _ _
  have := IndentedFrom.line h hb
  simpa [specOperation] using this


/-! ## Properties of the emitted code -/

/-- C1. For a modifier chain that starts with the optional modifier, `doWriteJsonType`
writes the guard `if v == nil {`, the single statement `ec.json.Null()` of the nil
branch, `} else {`, then exactly what it writes for the remaining chain with the
dereferenced flag set (one level deeper), then `}`; the remaining chain contributes
nothing to the nil branch. -/
theorem doWriteJsonType_optional (E : Env) (t : kind) (w : writer) (val : String)
    (rest : List String) (isPtr : Bool) :
    doWriteJsonType E t w val (E.modPtr :: rest) isPtr =
      if w.indent < 0 then none else
        (emitted (fun w => doWriteJsonType E t w val rest true) w.extractor (w.indent + 1)).map
          fun body =>
            { w with out := w.out ++ (ln w.indent ("if " ++ val ++ " == nil \x7b")
                ++ ln (w.indent + 1) "ec.json.Null()"
                ++ ln w.indent "\x7d else \x7b"
                ++ body
                ++ ln w.indent "\x7d") } := by
  refine (((emits_optional (emits_doWriteJsonType E t rest val true) val).congr
    fun w => unfold_optional E t w val rest isPtr) w).trans ?_
  dsimp only
  split <;> simp [Function.comp_def]


/-- C2. For a chain of optional and list modifiers, `writeJsonType` writes the token
`ec.json.BeginArray()` once per list modifier and `ec.json.EndArray()` as often, nested:
a list level is `ec.json.BeginArray()`, the loop `for _, val := range ...` whose body is
what is written for the remaining chain on `val` with the dereferenced flag reset, then
`ec.json.EndArray()`.  For the chain list, optional, list the nesting depth is 2 and the
nil check sits between the two array levels. -/
theorem writeJsonType_arrays (E : Env) (hne : E.modList ≠ E.modPtr) (t : kind) (x : extractor)
    (n : Int) :
    (∀ (w : writer) (val : String) (rest : List String) (isPtr : Bool),
      doWriteJsonType E t w val (E.modList :: rest) isPtr =
        if w.indent < 0 then none else
          (emitted (fun w => doWriteJsonType E t w "val" rest false) w.extractor
              (w.indent + 1)).map fun body =>
            { w with out := w.out ++ (ln w.indent "ec.json.BeginArray()"
                ++ ln w.indent
                  ("for _, val := range " ++ (if isPtr then "*" ++ val else val) ++ " \x7b")
                ++ body
                ++ ln w.indent "\x7d"
                ++ ln w.indent "ec.json.EndArray()") })
    ∧ ((∀ m ∈ t.Modifiers, m = E.modPtr ∨ m = E.modList) → 0 ≤ n → namesOk t = true →
        ∃ out, emitted (fun w => writeJsonType E w t "res") x n = some out
          ∧ out.count "ec.json.BeginArray()" = t.Modifiers.count E.modList
          ∧ out.count "ec.json.EndArray()" = t.Modifiers.count E.modList)
    ∧ (t.Modifiers = [E.modList, E.modPtr, E.modList] →
        emitted (fun w => writeJsonType E w t "res") x n =
          if n < 0 then none else
            (emitted (fun w => doWriteJsonType E t w "val" [] false) x (n + 3)).map fun leaf =>
              ln n "ec.json.BeginArray()"
                ++ ln n "for _, val := range res \x7b"
                ++ ln (n + 1) "if val == nil \x7b"
                ++ ln (n + 2) "ec.json.Null()"
                ++ ln (n + 1) "\x7d else \x7b"
                ++ ln (n + 2) "ec.json.BeginArray()"
                ++ ln (n + 2) "for _, val := range *val \x7b"
                ++ leaf
                ++ ln (n + 2) "\x7d"
                ++ ln (n + 2) "ec.json.EndArray()"
                ++ ln (n + 1) "\x7d"
                ++ ln n "\x7d"
                ++ ln n "ec.json.EndArray()") := by
  refine ⟨?_, ?_, ?_⟩
  · intro w val rest isPtr
    refine (((emits_list (emits_doWriteJsonType E t rest "val" false) _).congr
      fun w => unfold_list E t w val rest isPtr hne) w).trans ?_
    dsimp only
    split <;> simp [Function.comp_def]
  · intro hm hn hok
    obtain ⟨out, ho, hb⟩ := walker_counts E hne t x hok _ (Or.inl rfl) t.Modifiers hm
      "res" false n (by decide) hn
    obtain ⟨out', ho', he⟩ := walker_counts E hne t x hok _ (Or.inr rfl) t.Modifiers hm
      "res" false n (by decide) hn
    have : out' = out := by
      rw [ho] at ho'
      exact (Option.some.inj ho').symm
    subst this
    exact ⟨out', ho, hb, he⟩
  · intro hm
    unfold writeJsonType
    rw [hm, emitted_list E hne, emitted_optional, emitted_list E hne]
    by_cases h : n < 0
    · simp [h]
    · have h1 : ¬ n + 1 < 0 := by omega
      have h2 : ¬ n + 2 < 0 := by omega
      have e3 : n + 1 + 1 + 1 = n + 3 := by omega
      have e2 : n + 1 + 1 = n + 2 := by omega
      rw [e3, e2]
      simp only [h, h1, h2, if_false]
      cases emitted (fun w => doWriteJsonType E t w "val" [] false) x (n + 3) with
      | none => simp
      | some leaf =>
        simp [String.ext_iff, String.data_append]

/-- C2 on the kind with the chain list, optional, list: two array levels. -/
theorem writeJsonType_arrays_witness :
    exampleEnv.modList ≠ exampleEnv.modPtr
      ∧ (∀ m ∈ nestedKind.Modifiers, m = exampleEnv.modPtr ∨ m = exampleEnv.modList)
      ∧ (0 : Int) ≤ 0 ∧ namesOk nestedKind = true
      ∧ ∃ out, emitted (fun w => writeJsonType exampleEnv w nestedKind "res") emptyModel 0
            = some out
          ∧ out.count "ec.json.BeginArray()" = 2 ∧ out.count "ec.json.EndArray()" = 2 :=
  ⟨by decide, by decide, by decide, by decide,
    (writeJsonType_arrays exampleEnv (by decide) nestedKind emptyModel 0).2.1
      (by decide) (by decide) (by decide)⟩



/-- C4. When no modifier remains, `doWriteJsonType` writes one line.  For a Basic kind it
is `ec.json.<ucFirst(Name)>(x)` with `x` the value `*v` when the dereferenced flag is set
and `v` otherwise; for a kind that is neither Basic nor polymorphic it is
`_<lcFirst(GraphQLName)>(ec, field.Selections, x)` with `x` the value `v` when the flag is
set and `&v` otherwise. -/
theorem doWriteJsonType_leaf (E : Env) (t : kind) (w : writer) (val : String) (isPtr : Bool) :
    (t.Basic = true →
      doWriteJsonType E t w val [] isPtr =
        if w.indent < 0 then none else
          (ucFirst E t.Name).map fun u =>
            { w with out := w.out ++ (ln w.indent
                ("ec.json." ++ u ++ "(" ++ (if isPtr then "*" ++ val else val) ++ ")")) })
    ∧ (t.Basic = false → t.Implementors = [] →
      doWriteJsonType E t w val [] isPtr =
        if w.indent < 0 then none else
          (lcFirst E t.GraphQLName).map fun l =>
            { w with out := w.out ++ (ln w.indent
                ("_" ++ l ++ "(ec, field.Selections, "
                  ++ (if isPtr then val else "&" ++ val) ++ ")")) }) := by
  refine ⟨fun hB => ?_, fun hB hI => ?_⟩
  · refine (emits_leaf_basic E t val isPtr hB w).trans ?_
    dsimp only
    split <;> simp [Function.comp_def]
  · refine (emits_leaf_plain E t val isPtr hB hI w).trans ?_
    dsimp only
    split <;> simp [Function.comp_def]

/-- C4 on the kinds `string` (flag set) and `Todo` (flag not set). -/
theorem doWriteJsonType_leaf_witness :
    (stringKind.Basic = true
      ∧ emitted (fun w => doWriteJsonType exampleEnv stringKind w "res" [] true) emptyModel 0
          = some ["", "ec.json.String(*res)", "\n"])
    ∧ (todoKind.Basic = false ∧ todoKind.Implementors = []
      ∧ emitted (fun w => doWriteJsonType exampleEnv todoKind w "res" [] false) emptyModel 0
          = some ["", "_todo(ec, field.Selections, &res)", "\n"]) := by
  refine ⟨⟨rfl, ?_⟩, rfl, rfl, ?_⟩
  · rw [emitted, (doWriteJsonType_leaf exampleEnv stringKind ⟨emptyModel, [], 0⟩ "res" true).1 rfl]
    decide
  · rw [emitted,
      (doWriteJsonType_leaf exampleEnv todoKind ⟨emptyModel, [], 0⟩ "res" false).2 rfl rfl]
    decide



/-- C3. For a kind that is not Basic, has a non-empty list of Implementors and no
modifier left, `doWriteJsonType` writes the type switch: `case nil:` with the null
write, then for each Implementor in declared order the case `case T:` delegating with
`&it` and the case `case *T:` delegating with `it`, then `default:` with the panic.
It has `2 * n + 1` case labels for `n` Implementors, and one `default:`. -/
theorem doWriteJsonType_typeSwitch (E : Env) (t : kind) (val : String) (isPtr : Bool)
    (hB : t.Basic = false) (hI : t.Implementors ≠ []) (w : writer) (x : extractor) (n : Int) :
    (doWriteJsonType E t w val [] isPtr =
      if w.indent < 0 then none else
        (texts (t.Implementors.map fun i => (lcFirst E i.GraphQLName).map fun l =>
            ln w.indent ("case " ++ i.Local ++ ":")
              ++ ln w.indent ("\t_" ++ l ++ "(ec, field.Selections, &it)")
              ++ ln w.indent ("case *" ++ i.Local ++ ":")
              ++ ln w.indent ("\t_" ++ l ++ "(ec, field.Selections, it)"))).map fun cs =>
          { w with out := w.out ++ (ln w.indent ("switch it := " ++ val ++ ".(type) \x7b")
              ++ ln w.indent "case nil:"
              ++ ln w.indent "\tec.json.Null()"
              ++ cs
              ++ ln w.indent "default:"
              ++ ln w.indent "\tpanic(fmt.Errorf(\"unexpected type %T\", it))"
              ++ ln w.indent "\x7d") })
    ∧ (0 ≤ n → (∀ i ∈ t.Implementors, i.GraphQLName ≠ "") →
        ∃ out, emitted (fun w => doWriteJsonType E t w val [] isPtr) x n = some out
          ∧ out.countP isCaseLabel = 2 * t.Implementors.length + 1
          ∧ out.count "default:" = 1) := by
  refine ⟨?_, fun hn hall => ?_⟩
  · refine (emits_leaf_switch E t val isPtr hB hI w).trans ?_
    dsimp only
    split <;> simp [Function.comp_def]
  · have hn' : ¬ n < 0 := by omega
    rw [(emits_leaf_switch E t val isPtr hB hI).emitted_eq]
    have hp : ∀ o ∈ (t.Implementors.map fun i => (lcFirst E i.GraphQLName).map fun l =>
            ln n ("case " ++ i.Local ++ ":")
              ++ ln n ("\t_" ++ l ++ "(ec, field.Selections, &it)")
              ++ ln n ("case *" ++ i.Local ++ ":")
              ++ ln n ("\t_" ++ l ++ "(ec, field.Selections, it)")),
        ∃ a, o = some a ∧ a.countP isCaseLabel = 2 ∧ a.count "default:" = 0 := by
      intro o ho
      simp only [List.mem_map] at ho
      obtain ⟨i, hi, rfl⟩ := ho
      obtain ⟨l, hl⟩ := lcFirst_some E i.GraphQLName (hall i hi)
      refine ⟨_, by rw [hl]; rfl, ?_, ?_⟩
      · simp [List.countP_append, countP_ln, isCaseLabel, String.data_append, List.isPrefixOf]
      · simp [List.count_append, count_default_ln, String.ext_iff, String.data_append]
    obtain ⟨cs, hcs, hcs2⟩ := texts_countP isCaseLabel 2 _
      fun o ho => (hp o ho).imp fun a ha => ⟨ha.1, ha.2.1⟩
    obtain ⟨cs', hcs', hcs0⟩ := texts_count_zero "default:" _
      fun o ho => (hp o ho).imp fun a ha => ⟨ha.1, ha.2.2⟩
    have : cs' = cs := by
      rw [hcs] at hcs'
      exact (Option.some.inj hcs').symm
    subst this
    refine ⟨_, by rw [if_neg hn', hcs]; rfl, ?_, ?_⟩
    · simp [List.countP_append, countP_ln, isCaseLabel, String.data_append, List.isPrefixOf,
        hcs2]
      omega
    · simp [List.count_append, count_default_ln, String.ext_iff, String.data_append, hcs0]



/-- C3 on a kind with two Implementors: five case labels and one default. -/
theorem doWriteJsonType_typeSwitch_witness :
    nodeKind.Basic = false ∧ nodeKind.Implementors ≠ [] ∧ (0 : Int) ≤ 0
      ∧ (∀ i ∈ nodeKind.Implementors, i.GraphQLName ≠ "")
      ∧ ∃ out, emitted (fun w => doWriteJsonType exampleEnv nodeKind w "res" [] false)
            emptyModel 0 = some out
          ∧ out.countP isCaseLabel = 2 * 2 + 1 ∧ out.count "default:" = 1 :=
  ⟨rfl, List.cons_ne_nil _ _, by decide, by decide,
    (doWriteJsonType_typeSwitch exampleEnv nodeKind "res" false rfl (List.cons_ne_nil _ _)
      ⟨emptyModel, [], 0⟩ emptyModel 0).2 (by decide) (by decide)⟩



/-- C5. The body of the `Resolvers` interface written by `writeInterface` holds one
operation line per (object, field) pair whose `VarName` and `MethodName` are both empty
and nothing for the other fields, in object order then field order, each named
`<Object.Name>_<Field.GraphQLName>`.  For the object `Todo` with the fields `id` (bound to
`ID`), `text` and `done` the interface holds the two operations `Todo_text` and
`Todo_done`. -/
theorem writeInterface_operations :
    (∀ w : writer, w.writeInterface =
      if w.indent < 0 then none else
        some { w with out := w.out ++ (ln w.indent "type Resolvers interface \x7b"
          ++ (w.extractor.Objects.flatMap fun o =>
                (o.Fields.filter fun f => f.VarName = "" ∧ f.MethodName = "").flatMap fun f =>
                  specOperation (w.indent + 1) o f)
          ++ ln w.indent "\x7d" ++ ["\n"]) })
    ∧ (∀ (n : Int) (o : object) (f : Field),
        (specOperation n o f).take 2 = [tabs n, o.Name ++ "_" ++ f.GraphQLName ++ "("])
    ∧ emitted (fun w => w.writeInterface) todoModel 0 =
        some ["", "type Resolvers interface \x7b", "\n",
          "\t", "Todo_text(", "ctx context.Context", ", it *Todo", ") (string, error)", "\n",
          "\t", "Todo_done(", "ctx context.Context", ", it *Todo", ") (bool, error)", "\n",
          "", "\x7d", "\n", "\n"] := by
  refine ⟨fun w => ?_, fun n o f => ?_, by decide⟩
  · refine (emits_writeInterface w).trans ?_
    dsimp only
    have e : ∀ o : object, (o.Fields.flatMap fun f =>
        if f.VarName = "" ∧ f.MethodName = "" then specOperation (w.indent + 1) o f else [])
        = (o.Fields.filter fun f => f.VarName = "" ∧ f.MethodName = "").flatMap fun f =>
            specOperation (w.indent + 1) o f := by
      intro o
      induction o.Fields with
      | nil => rfl
      | cons f fs ih =>
        by_cases hf : f.VarName = "" ∧ f.MethodName = ""
        · simp [List.filter_cons, hf, ih]
        · simp only [List.flatMap_cons, ih, if_neg hf, List.nil_append]
          rw [List.filter_cons_of_neg (by simpa using hf)]
    simp only [e]
    split <;> simp
  · simp [specOperation]

/-- C6. The operation line written for an unbound field `f` of the object `o` has the
parameters `ctx context.Context`, then `it *<o.Type.Local()>` exactly when `o` is not
Root, then `<arg.Name> <arg.Type.Local()>` for each argument in declared order, and the
result pair `(<f.Type.Local()>, error)`; that is `1 + (0 if Root else 1) + len(f.Args)`
parameters. -/
theorem writeInterface_signature (o : object) (f : Field) (w : writer)
    (hv : f.VarName = "") (hm : f.MethodName = "") (hn : 0 ≤ w.indent) :
    w.writeInterfaceField o f =
        some { w with out := w.out ++ ([tabs w.indent, o.Name ++ "_" ++ f.GraphQLName ++ "("]
          ++ ("ctx context.Context"
                :: ((if o.Root then [] else [", it *" ++ o.Type_.Local])
                    ++ f.Args.map fun arg => ", " ++ arg.Name ++ " " ++ arg.Type_.Local))
          ++ [") (" ++ f.Type_.Local ++ ", error)", "\n"]) }
      ∧ ("ctx context.Context"
            :: ((if o.Root then [] else [", it *" ++ o.Type_.Local])
                ++ f.Args.map fun arg => ", " ++ arg.Name ++ " " ++ arg.Type_.Local)).length
          = 1 + (if o.Root then 0 else 1) + f.Args.length := by
  constructor
  · have hn' : ¬ w.indent < 0 := by omega
    refine (emits_writeInterfaceField o f w).trans ?_
    simp [hv, hm, hn', specOperation]
  · cases o.Root <;> simp <;> omega

/-- C6 on the field `todo(id: Int)` of the Root object `Query`. -/
theorem writeInterface_signature_witness :
    todoField.VarName = "" ∧ todoField.MethodName = "" ∧ (0 : Int) ≤ 1
      ∧ emitted (fun w => w.writeInterfaceField queryObject todoField) emptyModel 1
          = some ["\t", "Query_todo(", "ctx context.Context", ", id int", ") (Todo, error)", "\n"] := by
  refine ⟨rfl, rfl, by decide, ?_⟩
  rw [emitted,
    (writeInterface_signature queryObject todoField ⟨emptyModel, [], 1⟩ rfl rfl (by decide)).1]
  decide



/-- C7. For every field, `writeObjectResolver` writes one value-producing statement,
chosen from the model: when `VarName` is non-empty it is the single line
`res := <VarName>`, without argument-binding block and without error branch, whatever
`MethodName` is; otherwise it is a call of `MethodName` when that is non-empty, and a call
of `ec.resolvers.<Object.Name>_<Field.GraphQLName>` when it is empty.  The field `id` of
`Todo`, bound to `ID`, is resolved by the direct read `res := ID`. -/
theorem writeObjectResolver_strategy :
    (∀ (E : Env) (o : object) (f : Field) (x : extractor) (n : Int),
    emitted (fun w => w.writeObjectResolverField E o f) x n =
      if n < 0 then none else
        (texts [
          (if f.VarName ≠ "" then some (ln (n + 1) ("res := " ++ f.VarName))
           else
            (emitted (fun w => w.writeArgs E f) x (n + 1)).map fun args =>
              args
                ++ ln (n + 1) ((if f.NoErr then "res := " else "res, err := ")
                    ++ (if f.MethodName ≠ "" then f.MethodName
                        else "ec.resolvers." ++ o.Name ++ "_" ++ f.GraphQLName)
                    ++ "(" ++ getFuncArgs o f ++ ")")
                ++ (if f.NoErr then []
                    else ln (n + 1) "if err != nil \x7b" ++ ln (n + 1) "\tec.Error(err)"
                      ++ ln (n + 1) "\tcontinue" ++ ln (n + 1) "\x7d")),
          emitted (fun w => w.writeJsonType E f.Type_ "res") x (n + 1)]).map fun body =>
        ln n ("case " ++ Quote E f.GraphQLName ++ ":")
          ++ ln (n + 1) "ec.json.ObjectKey(field.Alias)"
          ++ body
          ++ ln (n + 1) "continue"
          ++ ln n "")
    ∧ emitted (fun w => w.writeObjectResolverField exampleEnv todoObject
          ⟨"id", "ID", "", [], stringKind, false⟩) todoModel 0
        = some ["", "case \"id\":", "\n",
            "\t", "ec.json.ObjectKey(field.Alias)", "\n",
            "\t", "res := ID", "\n",
            "\t", "ec.json.String(res)", "\n",
            "\t", "continue", "\n",
            "", "", "\n"] := by
  refine ⟨fun E o f x n => ?_, by decide⟩
  rw [(emits_writeObjectResolverField E o f).emitted_eq,
    (emits_writeEvaluateMethod E o f).emitted_eq]
  by_cases h : n < 0
  · simp [h]
  · have h1 : ¬ n + 1 < 0 := by omega
    simp only [h, h1, if_false]
    congr 3
    by_cases hv : f.VarName = ""
    · simp only [hv, ne_eq, not_true_eq_false, if_false]
      cases f.NoErr <;> simp [String.append_assoc]
    · simp [hv]

/-- C8. For a field resolved by a call, `writeEvaluateMethod` writes the single-value
binding `res := <callee>(<args>)` without error branch when `NoErr` is set, and
`res, err := <callee>(<args>)` followed by the branch `if err != nil {`, `ec.Error(err)`,
`continue`, `}` otherwise; in the case block of the field this code stands before the
serialization code. -/
theorem writeEvaluateMethod_errorBranch (E : Env) (o : object) (f : Field) (w : writer)
    (x : extractor) (n : Int) :
    (w.writeEvaluateMethod E o f =
      if w.indent < 0 then none else
        (emitted (fun w => w.writeArgs E f) w.extractor w.indent).map fun args =>
          { w with out := w.out ++ args ++ (
            if f.NoErr then
              ln w.indent ("res := "
                ++ (if f.MethodName ≠ "" then f.MethodName
                    else "ec.resolvers." ++ o.Name ++ "_" ++ f.GraphQLName)
                ++ "(" ++ getFuncArgs o f ++ ")")
            else
              ln w.indent ("res, err := "
                ++ (if f.MethodName ≠ "" then f.MethodName
                    else "ec.resolvers." ++ o.Name ++ "_" ++ f.GraphQLName)
                ++ "(" ++ getFuncArgs o f ++ ")")
              ++ ln w.indent "if err != nil \x7b"
              ++ ln w.indent "\tec.Error(err)"
              ++ ln w.indent "\tcontinue"
              ++ ln w.indent "\x7d") })
    ∧ (f.VarName = "" →
        emitted (fun w => w.writeObjectResolverField E o f) x n =
          if n < 0 then none else
            (emitted (fun w => w.writeEvaluateMethod E o f) x (n + 1)).bind fun call =>
              (emitted (fun w => w.writeJsonType E f.Type_ "res") x (n + 1)).map
                fun serialization =>
                  ln n ("case " ++ Quote E f.GraphQLName ++ ":")
                    ++ ln (n + 1) "ec.json.ObjectKey(field.Alias)"
                    ++ call
                    ++ serialization
                    ++ ln (n + 1) "continue"
                    ++ ln n "") := by
  refine ⟨?_, fun hv => ?_⟩
  · refine (emits_writeEvaluateMethod E o f w).trans ?_
    dsimp only
    split
    · simp
    · cases emitted (fun w => w.writeArgs E f) w.extractor w.indent <;> simp
  · rw [(emits_writeObjectResolverField E o f).emitted_eq]
    by_cases h : n < 0
    · simp [h]
    · simp only [h, if_false, hv, ne_eq, not_true_eq_false, texts]
      cases emitted (fun w => w.writeEvaluateMethod E o f) x (n + 1) with
      | none => simp
      | some call =>
        cases emitted (fun w => w.writeJsonType E f.Type_ "res") x (n + 1) <;> simp

/-- C8 on the unbound field `text` of `Todo`: the error branch stands before the
serialization code. -/
theorem writeEvaluateMethod_errorBranch_witness :
    (⟨"text", "", "", [], stringKind, false⟩ : Field).VarName = ""
      ∧ emitted (fun w => w.writeObjectResolverField exampleEnv todoObject
            ⟨"text", "", "", [], stringKind, false⟩) todoModel 0
          = some ["", "case \"text\":", "\n",
              "\t", "ec.json.ObjectKey(field.Alias)", "\n",
              "\t", "res, err := ec.resolvers.Todo_text(ec.ctx, it)", "\n",
              "\t", "if err != nil \x7b", "\n",
              "\t", "\tec.Error(err)", "\n",
              "\t", "\tcontinue", "\n",
              "\t", "\x7d", "\n",
              "\t", "ec.json.String(res)", "\n",
              "\t", "continue", "\n",
              "", "", "\n"] := by
  refine ⟨rfl, ?_⟩
  rw [(writeEvaluateMethod_errorBranch exampleEnv todoObject
    ⟨"text", "", "", [], stringKind, false⟩ ⟨todoModel, [], 0⟩ todoModel 0).2 rfl]
  decide



/-- C9. `getFuncArgs` returns the list, joined by `, `, of: `ec.ctx` exactly when
`MethodName` is empty; `it` exactly when `MethodName` is empty and the object is not
Root; then `arg0`, ..., `arg(n-1)` for the `n` declared arguments.  A bound method and
any call on a Root object do not receive `it`. -/
theorem getFuncArgs_eq (o : object) (f : Field) :
    getFuncArgs o f =
        stringsJoin
          ((if f.MethodName = "" then "ec.ctx" :: (if o.Root then [] else ["it"]) else [])
            ++ (List.range f.Args.length).map fun (i : Nat) => "arg" ++ Itoa i) ", "
      ∧ ((f.MethodName ≠ "" ∨ o.Root = true) →
          "it" ∉ (if f.MethodName = "" then "ec.ctx" :: (if o.Root then [] else ["it"]) else [])
            ++ (List.range f.Args.length).map fun (i : Nat) => "arg" ++ Itoa i) := by
  have hfold : ∀ (l : List Nat) (init : List String),
      l.foldl (fun args (i : Nat) => args ++ ["arg" ++ Itoa i]) init
        = init ++ l.map fun (i : Nat) => "arg" ++ Itoa i := by
    intro l
    induction l with
    | nil => simp
    | cons a l ih => intro init; simp [ih]
  constructor
  · unfold getFuncArgs
    simp only [hfold]
    by_cases hm : f.MethodName = "" <;> cases o.Root <;> simp [hm]
  · intro h
    have harg : ∀ i : Nat, ¬ "arg" ++ Itoa i = "it" := by
      intro i
      simp [String.ext_iff, String.data_append]
    rcases h with h | h
    · simpa [h] using fun i _ => harg i
    · by_cases hm : f.MethodName = "" <;> simpa [h, hm] using fun i _ => harg i

/-- C9 on a bound method of the object `Todo` and on the field `todo` of the Root
object `Query`. -/
theorem getFuncArgs_eq_witness :
    (((⟨"owner", "", "Owner", [⟨"id", intKind⟩], userKind, false⟩ : Field).MethodName ≠ ""
        ∨ todoObject.Root = true)
      ∧ getFuncArgs todoObject ⟨"owner", "", "Owner", [⟨"id", intKind⟩], userKind, false⟩
          = "arg0")
    ∧ ((todoField.MethodName ≠ "" ∨ queryObject.Root = true)
      ∧ getFuncArgs queryObject todoField = "ec.ctx, arg0"
      ∧ "it" ∉ ["ec.ctx", "arg0"]) := by
  refine ⟨⟨Or.inl (by decide), by decide⟩, Or.inr rfl, by decide, ?_⟩
  have h := (getFuncArgs_eq queryObject todoField).2 (Or.inr rfl)
  exact fun hc => h (by revert hc; decide)



/-- C10 (the code departs from it). For an argument at position `i` whose type is not
Basic, `writeArgs` declares `arg<i>` and writes the unpacking call with the fixed
reference `&arg1`, whatever `i` is, followed by the branch that only forwards the failure
with `ec.Error(err)`; the claimed call `unpackComplexArg(&arg<i>, ...)` is written for
`i = 1` only. -/
theorem writeArgs_unpack_reference (E : Env) (i : Nat) (arg : FieldArgument) (x : extractor)
    (n : Int) (hB : arg.Type_.Basic = false) (hn : 0 ≤ n) :
    emitted (fun w => w.writeArg E i arg) x n =
      some (ln n ("var arg" ++ Itoa i ++ " " ++ arg.Type_.Local)
        ++ ln n ("err := unpackComplexArg(&arg1, field.Args[" ++ Quote E arg.Name ++ "])")
        ++ ln n "if err != nil \x7b"
        ++ ln n "\tec.Error(err)"
        ++ ln n "\x7d") := by
  have hn' : ¬ n < 0 := by omega
  rw [(emits_writeArg E i arg).emitted_eq]
  simp [hn', hB]

/-- C10 on the field `createTodo(todo: TodoInput)`: the binding declared is `arg0`, the
binding filled is `arg1`. -/
theorem writeArgs_unpack_reference_witness :
    todoInputKind.Basic = false ∧ (0 : Int) ≤ 0
      ∧ emitted (fun w => w.writeArgs exampleEnv createTodoField) emptyModel 0 =
          some ["", "var arg0 TodoInput", "\n",
            "", "err := unpackComplexArg(&arg1, field.Args[\"todo\"])", "\n",
            "", "if err != nil \x7b", "\n",
            "", "\tec.Error(err)", "\n",
            "", "\x7d", "\n"] := by
  refine ⟨rfl, by decide, ?_⟩
  have h := writeArgs_unpack_reference exampleEnv 0 ⟨"todo", todoInputKind⟩ emptyModel 0 rfl
    (by decide)
  have e : emitted (fun w => w.writeArgs exampleEnv createTodoField) emptyModel 0
      = emitted (fun w => w.writeArg exampleEnv 0 ⟨"todo", todoInputKind⟩) emptyModel 0 := by
    decide
  rw [e, h]
  decide



/-- C11. For every declared argument at position `i`, `writeArgs` writes, in argument
order, first the declaration `var arg<i> <Type.Local()>`; for a Basic type it then writes
the lookup `if tmp, ok := field.Args[<quoted name>]; ok {`, inside which the value is
coerced to `Type.Name` and bound to `arg<i>` directly, or, when `IsPtr` holds, coerced
into `tmp2` with `arg<i>` bound to `&tmp2`. -/
theorem writeArgs_basic (E : Env) (f : Field) (x : extractor) (n : Int) (hn : 0 ≤ n) :
    emitted (fun w => w.writeArgs E f) x n
        = texts (f.Args.enum.map fun ia => emitted (fun w => w.writeArg E ia.1 ia.2) x n)
      ∧ ∀ (i : Nat) (arg : FieldArgument), ∃ tail,
          emitted (fun w => w.writeArg E i arg) x n
              = some (ln n ("var arg" ++ Itoa i ++ " " ++ arg.Type_.Local) ++ tail)
            ∧ (arg.Type_.Basic = true →
                tail = ln n ("if tmp, ok := field.Args[" ++ Quote E arg.Name ++ "]; ok \x7b")
                  ++ (if arg.Type_.IsPtr E then
                        ln n ("\ttmp2 := tmp.(" ++ arg.Type_.Name ++ ")")
                          ++ ln n ("\targ" ++ Itoa i ++ " = &tmp2")
                      else ln n ("\targ" ++ Itoa i ++ " = tmp.(" ++ arg.Type_.Name ++ ")"))
                  ++ ln n "\x7d") := by
  have hn' : ¬ n < 0 := by omega
  constructor
  · have e : emitted (fun w => w.writeArgs E f) x n = _ :=
      (emits_foldlM (fun (w : writer) (ia : Nat × FieldArgument) => w.writeArg E ia.1 ia.2) _
        (fun ia => emits_writeArg E ia.1 ia.2) f.Args.enum).emitted_eq x n
    rw [e]
    congr 1
    apply List.map_congr_left
    intro ia _
    exact ((emits_writeArg E ia.1 ia.2).emitted_eq x n).symm
  · intro i arg
    rw [(emits_writeArg E i arg).emitted_eq]
    simp only [hn', if_false]
    refine ⟨_, rfl, fun hB => ?_⟩
    simp [hB]

/-- C11 on a field with the arguments `id` (int) and `name` (optional string). -/
theorem writeArgs_basic_witness :
    (0 : Int) ≤ 0
      ∧ emitted (fun w => w.writeArgs exampleEnv findField) emptyModel 0 =
          some ["", "var arg0 int", "\n",
            "", "if tmp, ok := field.Args[\"id\"]; ok \x7b", "\n",
            "", "\targ0 = tmp.(int)", "\n",
            "", "\x7d", "\n",
            "", "var arg1 *string", "\n",
            "", "if tmp, ok := field.Args[\"name\"]; ok \x7b", "\n",
            "", "\ttmp2 := tmp.(string)", "\n",
            "", "\targ1 = &tmp2", "\n",
            "", "\x7d", "\n"] := by
  refine ⟨by decide, ?_⟩
  rw [(writeArgs_basic exampleEnv findField emptyModel 0 (by decide)).1]
  decide



/-- C13. `writeVars` writes one satisfies line per object, in declared order, named
`<lcFirst(Type.GraphQLName)>Satisfies`; its string list is the quoted GraphQL type name of
the object followed by the quoted entries of its satisfies list in declared order, that
is `1 + len(satisfies)` strings. -/
theorem writeVars_satisfies :
    (∀ (E : Env) (w : writer), w.writeVars E =
      if w.indent < 0 then none else
        (texts (w.extractor.Objects.map fun o =>
          (lcFirst E o.Type_.GraphQLName).map fun l =>
            ln (w.indent + 1) (l ++ "Satisfies = []string\x7b"
              ++ stringsJoin (Quote E o.Type_.GraphQLName :: o.satisfies.map (Quote E)) ", "
              ++ "\x7d"))).map
          fun body =>
            { w with out := w.out ++ (ln w.indent "var (" ++ body ++ ln w.indent ")" ++ ["\n"]) })
    ∧ (∀ (E : Env) (o : object),
        (Quote E o.Type_.GraphQLName :: o.satisfies.map (Quote E)).length
          = 1 + o.satisfies.length)
    ∧ emitted (fun w => w.writeVars exampleEnv) ⟨"gen", [], [nodeTodoObject, queryObject], ""⟩ 0
        = some ["", "var (", "\n",
            "\t", "todoSatisfies = []string\x7b\"Todo\", \"Node\", \"Entity\"\x7d", "\n",
            "\t", "querySatisfies = []string\x7b\"Query\"\x7d", "\n",
            "", ")", "\n", "\n"] := by
  refine ⟨fun E w => ?_, fun E o => ?_, by decide⟩
  · refine (emits_writeVars E w).trans ?_
    dsimp only
    simp only [satisfiesList_eq]
    split
    · rfl
    · cases texts _ <;> simp
  · simp [Nat.add_comm]

/-- C14 (the code departs from it). `writeImports` writes, for the entry (alias, path),
the line made of the path alone when the alias is `filepath.Base(path)` and the line
`<alias> <quoted path>` otherwise.  In the second line the path is `strconv.Quote(path)`.
In the first the quoted path is passed as the format of the line, so it is written as
`strconv.Quote(path)` for a path without a percent sign, and not for the path
`lib/a%sb`. -/
theorem writeImports_lines :
    (∀ (E : Env) (w : writer), w.writeImports E =
      if w.indent < 0 then none else
        some { w with out := w.out ++ (ln w.indent "import ("
          ++ (w.extractor.Imports.flatMap fun lp =>
                ln (w.indent + 1) (if lp.1 = filepathBase lp.2 then Sprintf (Quote E lp.2) []
                                   else lp.1 ++ " " ++ Quote E lp.2))
          ++ ln w.indent ")" ++ ["\n"]) })
    ∧ (∀ (E : Env) (pkg : String), '%' ∉ pkg.data → Sprintf (Quote E pkg) [] = Quote E pkg)
    ∧ emitted (fun w => w.writeImports exampleEnv) percentModel 0
        = some ["", "import (", "\n", "\t", "\"lib/a%!s(MISSING)b\"", "\n", "", ")", "\n", "\n"]
    ∧ Quote exampleEnv "lib/a%sb" = "\"lib/a%sb\""
    ∧ "a%sb" = filepathBase "lib/a%sb" := by
  refine ⟨fun E w => ?_, Sprintf_Quote, by decide, by decide, by decide⟩
  refine (emits_writeImports E w).trans ?_
  dsimp only
  split <;> simp



/-- C14 on a path without a percent sign: the line is the quoted path. -/
theorem writeImports_lines_witness :
    '%' ∉ "github.com/vektah/gqlgen/neelance/query".data
      ∧ Sprintf (Quote exampleEnv "github.com/vektah/gqlgen/neelance/query") []
          = Quote exampleEnv "github.com/vektah/gqlgen/neelance/query"
      ∧ emitted (fun w => w.writeImports exampleEnv) importsModel 0
          = some ["", "import (", "\n",
              "\t", "\"github.com/vektah/gqlgen/neelance/query\"", "\n",
              "\t", "gql \"example.com/graphql\"", "\n",
              "", ")", "\n", "\n"] :=
  ⟨by decide, writeImports_lines.2.1 exampleEnv _ (by decide), by decide⟩

/-- C15, as stated, fails: the two orders in which one `range` statement may visit the
same two-entry map give two different import blocks. -/
theorem writeImports_order_counterexample :
    importsModel.Imports.Perm importsModelSwapped.Imports
      ∧ emitted (fun w => w.writeImports exampleEnv) importsModel 0
          ≠ emitted (fun w => w.writeImports exampleEnv) importsModelSwapped 0 :=
  ⟨List.Perm.swap _ _ _, by decide⟩

/-- C15, amended. `writeImports` writes one line per binding in the order in which the
`range` statement visits the map.  Two emissions from the same mapping, whose entries are
visited in orders that are permutations of each other, give import blocks that hold the
same lines up to that permutation. -/
theorem writeImports_order (E : Env) (x₁ x₂ : extractor) (n : Int) (hn : 0 ≤ n)
    (hp : x₁.Imports.Perm x₂.Imports) :
    ∃ line : String × String → List String,
      (∀ lp, line lp = ln (n + 1) (if lp.1 = filepathBase lp.2 then Sprintf (Quote E lp.2) []
                                   else lp.1 ++ " " ++ Quote E lp.2))
      ∧ emitted (fun w => w.writeImports E) x₁ n
          = some (ln n "import (" ++ (x₁.Imports.map line).flatten ++ ln n ")" ++ ["\n"])
      ∧ emitted (fun w => w.writeImports E) x₂ n
          = some (ln n "import (" ++ (x₂.Imports.map line).flatten ++ ln n ")" ++ ["\n"])
      ∧ (x₁.Imports.map line).Perm (x₂.Imports.map line) := by
  have hn' : ¬ n < 0 := by omega
  refine ⟨_, fun lp => rfl, ?_, ?_, hp.map _⟩
  · rw [(emits_writeImports E).emitted_eq, if_neg hn', List.flatMap_def]
  · rw [(emits_writeImports E).emitted_eq, if_neg hn', List.flatMap_def]

/-- C15, amended, on a map with two entries visited in the two possible orders. -/
theorem writeImports_order_witness :
    (0 : Int) ≤ 0 ∧ importsModel.Imports.Perm importsModelSwapped.Imports
      ∧ ∃ lines₁ lines₂ : List (List String),
          emitted (fun w => w.writeImports exampleEnv) importsModel 0
            = some (ln 0 "import (" ++ lines₁.flatten ++ ln 0 ")" ++ ["\n"])
          ∧ emitted (fun w => w.writeImports exampleEnv) importsModelSwapped 0
            = some (ln 0 "import (" ++ lines₂.flatten ++ ln 0 ")" ++ ["\n"])
          ∧ lines₁.Perm lines₂ := by
  refine ⟨by decide, List.Perm.swap _ _ _, ?_⟩
  obtain ⟨line, _, h₁, h₂, hp⟩ :=
    writeImports_order exampleEnv importsModel importsModelSwapped 0 (by decide)
      (List.Perm.swap _ _ _)
  exact ⟨_, _, h₁, h₂, hp⟩



/-- C16. For an unbound field `f` of the object `o`, the call written by
`writeEvaluateMethod` agrees with the operation written for it by `writeInterface`: the
callee is `ec.resolvers.` followed by the operation name `<o.Name>_<f.GraphQLName>`, and
the arguments joined by `getFuncArgs` are as many as the parameters, in the same
positions: the context, the instance exactly when `o` is not Root, one per declared
argument. -/
theorem call_matches_operation (E : Env) (o : object) (f : Field) (x : extractor) (n : Int)
    (hv : f.VarName = "") (hm : f.MethodName = "") (hn : 0 ≤ n) :
    ∃ args params : List String,
      args = "ec.ctx" :: ((if o.Root then [] else ["it"])
          ++ (List.range f.Args.length).map fun (i : Nat) => "arg" ++ Itoa i)
      ∧ params = "ctx context.Context"
          :: ((if o.Root then [] else [", it *" ++ o.Type_.Local])
              ++ f.Args.map fun arg => ", " ++ arg.Name ++ " " ++ arg.Type_.Local)
      ∧ args.length = params.length
      ∧ emitted (fun w => w.writeInterfaceField o f) x n
          = some ([tabs n, o.Name ++ "_" ++ f.GraphQLName ++ "("] ++ params
              ++ [") (" ++ f.Type_.Local ++ ", error)", "\n"])
      ∧ emitted (fun w => w.writeEvaluateMethod E o f) x n
          = (emitted (fun w => w.writeArgs E f) x n).map fun block =>
              block
                ++ ln n ((if f.NoErr then "res := " else "res, err := ")
                    ++ "ec.resolvers." ++ (o.Name ++ "_" ++ f.GraphQLName)
                    ++ "(" ++ stringsJoin args ", " ++ ")")
                ++ (if f.NoErr then []
                    else ln n "if err != nil \x7b" ++ ln n "\tec.Error(err)"
                      ++ ln n "\tcontinue" ++ ln n "\x7d") := by
  have hn' : ¬ n < 0 := by omega
  have hfold : ∀ (l : List Nat) (init : List String),
      l.foldl (fun args (i : Nat) => args ++ ["arg" ++ Itoa i]) init
        = init ++ l.map fun (i : Nat) => "arg" ++ Itoa i := by
    intro l
    induction l with
    | nil => simp
    | cons a l ih => intro init; simp [ih]
  have hargs : getFuncArgs o f = stringsJoin ("ec.ctx" :: ((if o.Root then [] else ["it"])
      ++ (List.range f.Args.length).map fun (i : Nat) => "arg" ++ Itoa i)) ", " := by
    unfold getFuncArgs
    simp only [hfold]
    cases o.Root <;> simp [hm]
  refine ⟨_, _, rfl, rfl, ?_, ?_, ?_⟩
  · cases o.Root <;> simp
  · rw [(emits_writeInterfaceField o f).emitted_eq]
    simp [hv, hm, hn', specOperation]
  · rw [(emits_writeEvaluateMethod E o f).emitted_eq, if_neg hn', hargs]
    congr 1
    funext block
    cases f.NoErr <;> simp [hm, String.append_assoc] <;>
      (rw [← String.append_assoc]; rfl)

/-- C16 on the field `todo(id: Int)` of the Root object `Query`: two arguments for two
parameters. -/
theorem call_matches_operation_witness :
    todoField.VarName = "" ∧ todoField.MethodName = "" ∧ (0 : Int) ≤ 0
      ∧ emitted (fun w => w.writeInterfaceField queryObject todoField) emptyModel 0
          = some ["", "Query_todo(", "ctx context.Context", ", id int", ") (Todo, error)", "\n"]
      ∧ emitted (fun w => w.writeEvaluateMethod exampleEnv queryObject todoField) emptyModel 0
          = some ["", "var arg0 int", "\n",
              "", "if tmp, ok := field.Args[\"id\"]; ok \x7b", "\n",
              "", "\targ0 = tmp.(int)", "\n",
              "", "\x7d", "\n",
              "", "res, err := ec.resolvers.Query_todo(ec.ctx, arg0)", "\n",
              "", "if err != nil \x7b", "\n",
              "", "\tec.Error(err)", "\n",
              "", "\tcontinue", "\n",
              "", "\x7d", "\n"] := by
  obtain ⟨args, params, ha, hp, _, hi, hc⟩ :=
    call_matches_operation exampleEnv queryObject todoField emptyModel 0 rfl rfl (by decide)
  subst ha hp
  refine ⟨rfl, rfl, by decide, ?_, ?_⟩
  · rw [hi]; decide
  · rw [hc]; decide



/-- C17, as stated, fails: for an unbound field whose `NoErr` flag is set, the operation
written by `writeInterface` returns the pair `(string, error)` while the call written by
`writeEvaluateMethod` binds the single `res`, without `res, err :=` and without error
branch. -/
theorem call_results_counterexample :
    textNoErrField.VarName = "" ∧ textNoErrField.MethodName = ""
      ∧ emitted (fun w => w.writeInterfaceField todoObject textNoErrField) emptyModel 0
          = some ["", "Todo_text(", "ctx context.Context", ", it *Todo", ") (string, error)", "\n"]
      ∧ emitted (fun w => w.writeEvaluateMethod exampleEnv todoObject textNoErrField)
            emptyModel 0
          = some ["", "res := ec.resolvers.Todo_text(ec.ctx, it)", "\n"]
      ∧ ¬ ∃ out, emitted (fun w => w.writeEvaluateMethod exampleEnv todoObject textNoErrField)
            emptyModel 0 = some out ∧ ∃ s ∈ out, isPairBinding s = true := by
  refine ⟨rfl, rfl, by decide, by decide, ?_⟩
  rintro ⟨out, ho, s, hs, hp⟩
  have e : emitted (fun w => w.writeEvaluateMethod exampleEnv todoObject textNoErrField)
      emptyModel 0 = some ["", "res := ec.resolvers.Todo_text(ec.ctx, it)", "\n"] := by decide
  rw [e] at ho
  cases ho
  have hall : ∀ s ∈ ["", "res := ec.resolvers.Todo_text(ec.ctx, it)", "\n"],
      isPairBinding s = false := by decide
  rw [hall s hs] at hp
  exact Bool.noConfusion hp

/-- C17, amended. For an unbound field whose `NoErr` flag is not set, the call written by
`writeEvaluateMethod` binds `res, err :=` and is followed by the error branch, as many
results as the pair `(<f.Type.Local()>, error)` that `writeInterface` declares for its
operation; `writeInterface` declares that pair whatever `NoErr` is. -/
theorem call_results (E : Env) (o : object) (f : Field) (x : extractor) (n : Int)
    (hv : f.VarName = "") (hm : f.MethodName = "") (he : f.NoErr = false) (hn : 0 ≤ n) :
    (∃ head, emitted (fun w => w.writeInterfaceField o f) x n
        = some (head ++ [") (" ++ f.Type_.Local ++ ", error)", "\n"]))
      ∧ emitted (fun w => w.writeEvaluateMethod E o f) x n
          = (emitted (fun w => w.writeArgs E f) x n).map fun block =>
              block
                ++ ln n ("res, err := " ++ ("ec.resolvers." ++ o.Name ++ "_" ++ f.GraphQLName)
                    ++ "(" ++ getFuncArgs o f ++ ")")
                ++ ln n "if err != nil \x7b" ++ ln n "\tec.Error(err)"
                ++ ln n "\tcontinue" ++ ln n "\x7d" := by
  have hn' : ¬ n < 0 := by omega
  constructor
  · rw [(emits_writeInterfaceField o f).emitted_eq]
    simp only [hv, hm, and_self, if_true, hn', if_false, specOperation]
    exact ⟨_, by rw [List.append_assoc]⟩
  · rw [(emits_writeEvaluateMethod E o f).emitted_eq, if_neg hn']
    congr 1
    funext block
    simp [hm, he]

/-- C17, amended, on the unbound field `text` of `Todo`. -/
theorem call_results_witness :
    textField.VarName = "" ∧ textField.MethodName = "" ∧ textField.NoErr = false
      ∧ (0 : Int) ≤ 0
      ∧ emitted (fun w => w.writeEvaluateMethod exampleEnv todoObject textField) emptyModel 0
          = some ["", "res, err := ec.resolvers.Todo_text(ec.ctx, it)", "\n",
              "", "if err != nil \x7b", "\n",
              "", "\tec.Error(err)", "\n",
              "", "\tcontinue", "\n",
              "", "\x7d", "\n"] := by
  refine ⟨rfl, rfl, rfl, by decide, ?_⟩
  rw [(call_results exampleEnv todoObject textField emptyModel 0 rfl rfl rfl (by decide)).2]
  decide



/-- C20 (the code departs from it). The block written by `writeArgs` holds one `var`
declaration per argument, and one short declaration `err := ...` per argument whose type
is not Basic: with two such arguments the name `err` is introduced twice in the scope of
the case. -/
theorem writeArgs_declarations (E : Env) (f : Field) (x : extractor) (n : Int) (hn : 0 ≤ n) :
    ∃ block, emitted (fun w => w.writeArgs E f) x n = some block
      ∧ block.countP isVarDecl = f.Args.length
      ∧ block.countP isErrDecl = f.Args.countP fun arg => !arg.Type_.Basic := by
  have hn' : ¬ n < 0 := by omega
  have e : emitted (fun w => w.writeArgs E f) x n = _ :=
    (emits_foldlM (fun (w : writer) (ia : Nat × FieldArgument) => w.writeArg E ia.1 ia.2) _
      (fun ia => emits_writeArg E ia.1 ia.2) f.Args.enum).emitted_eq x n
  simp only [hn', if_false, texts_map_some] at e
  refine ⟨_, e, ?_, ?_⟩
  · have hv : ∀ (n : Int) (s : String),
        (ln n s).countP isVarDecl = if isVarDecl s then 1 else 0 := by
      intro n s
      have h1 : isVarDecl (tabs n) = false := by
        unfold isVarDecl
        rw [tabs_data]
        cases n.toNat with
        | zero => rfl
        | succ k => simp [List.replicate_succ, List.isPrefixOf]
      have h2 : isVarDecl "\n" = false := by decide
      simp [ln, List.countP_cons, h1, h2]
    unfold List.enum
    generalize 0 = k
    induction f.Args generalizing k with
    | nil => rfl
    | cons a l ih =>
      simp only [List.enumFrom_cons, List.flatMap_cons, List.countP_append, ih,
        List.length_cons]
      cases a.Type_.Basic <;> cases a.Type_.IsPtr E <;>
        simp [List.countP_append, hv, isVarDecl, String.data_append, List.isPrefixOf] <;> omega
  · have hv : ∀ (n : Int) (s : String),
        (ln n s).countP isErrDecl = if isErrDecl s then 1 else 0 := by
      intro n s
      have h1 : isErrDecl (tabs n) = false := by
        unfold isErrDecl
        rw [tabs_data]
        cases n.toNat with
        | zero => rfl
        | succ k => simp [List.replicate_succ, List.isPrefixOf]
      have h2 : isErrDecl "\n" = false := by decide
      simp [ln, List.countP_cons, h1, h2]
    unfold List.enum
    generalize 0 = k
    induction f.Args generalizing k with
    | nil => rfl
    | cons a l ih =>
      simp only [List.enumFrom_cons, List.flatMap_cons, List.countP_append, ih,
        List.countP_cons]
      cases a.Type_.Basic <;> cases a.Type_.IsPtr E <;>
        simp [List.countP_append, hv, isErrDecl, String.data_append, List.isPrefixOf] <;> omega

/-- C20 on a field with two arguments that are not Basic: `err` is introduced twice. -/
theorem writeArgs_declarations_witness :
    (0 : Int) ≤ 0
      ∧ emitted (fun w => w.writeArgs exampleEnv mergeField) emptyModel 0 =
          some ["", "var arg0 TodoInput", "\n",
            "", "err := unpackComplexArg(&arg1, field.Args[\"left\"])", "\n",
            "", "if err != nil \x7b", "\n",
            "", "\tec.Error(err)", "\n",
            "", "\x7d", "\n",
            "", "var arg1 TodoInput", "\n",
            "", "err := unpackComplexArg(&arg1, field.Args[\"right\"])", "\n",
            "", "if err != nil \x7b", "\n",
            "", "\tec.Error(err)", "\n",
            "", "\x7d", "\n"]
      ∧ ∃ block, emitted (fun w => w.writeArgs exampleEnv mergeField) emptyModel 0 = some block
          ∧ block.countP isErrDecl = 2 := by
  refine ⟨by decide, by decide, ?_⟩
  obtain ⟨block, hb, _, he⟩ :=
    writeArgs_declarations exampleEnv mergeField emptyModel 0 (by decide)
  exact ⟨block, hb, he.trans (by decide)⟩



/-- C18. For a chain `m` of optional and list modifiers, `writeJsonType(t, "res")` writes
wrapper lines around the statement of the base case, which uses the value name `val` when
`m` holds a list modifier and `res` otherwise, and is written with the dereferenced flag
set exactly when `m` is not empty and ends with the optional modifier: a Basic kind
writes `*<name>` in that case and `<name>` otherwise, a plain object kind passes
`<name>` in that case and `&<name>` otherwise. -/
theorem writeJsonType_leaf_arguments (E : Env) (hne : E.modList ≠ E.modPtr) (t : kind)
    (x : extractor) (n : Int) (hm : ∀ m ∈ t.Modifiers, m = E.modPtr ∨ m = E.modList) :
    ∃ (name : String) (flag : Bool) (pre post : List (Int × String)),
      name = (if E.modList ∈ t.Modifiers then "val" else "res")
      ∧ flag = decide (t.Modifiers.getLast? = some E.modPtr)
      ∧ (∀ p ∈ pre ++ post, isWrapperText p.2 = true)
      ∧ emitted (fun w => w.writeJsonType E t "res") x n =
          (if n < 0 then none else
            (emitted (fun w => doWriteJsonType E t w name [] flag) x
                (n + t.Modifiers.length)).map
              fun leaf => linesText pre ++ leaf ++ linesText post)
      ∧ (t.Basic = true → ∀ k : Int,
          emitted (fun w => doWriteJsonType E t w name [] flag) x k =
            if k < 0 then none else
              (ucFirst E t.Name).map fun u =>
                ln k ("ec.json." ++ u ++ "(" ++ (if flag then "*" ++ name else name) ++ ")"))
      ∧ (t.Basic = false → t.Implementors = [] → ∀ k : Int,
          emitted (fun w => doWriteJsonType E t w name [] flag) x k =
            if k < 0 then none else
              (lcFirst E t.GraphQLName).map fun l =>
                ln k ("_" ++ l ++ "(ec, field.Selections, "
                  ++ (if flag then name else "&" ++ name) ++ ")")) := by
  obtain ⟨pre, post, hw, he⟩ := walker_leaf E hne t x t.Modifiers hm "res" false n
  have hflag : leafFlag E t.Modifiers false = decide (t.Modifiers.getLast? = some E.modPtr) := by
    rw [leafFlag_eq]
    split
    · next h => simp [h]
    · rfl
  rw [hflag] at he
  exact ⟨_, _, pre, post, rfl, rfl, hw, he,
    fun hB k => (emits_leaf_basic E t _ _ hB).emitted_eq x k,
    fun hB hI k => (emits_leaf_plain E t _ _ hB hI).emitted_eq x k⟩

/-- C18 on a list of optional strings: the base case writes `*val`. -/
theorem writeJsonType_leaf_arguments_witness :
    exampleEnv.modList ≠ exampleEnv.modPtr
      ∧ (∀ m ∈ optionalItemsKind.Modifiers, m = exampleEnv.modPtr ∨ m = exampleEnv.modList)
      ∧ optionalItemsKind.Basic = true
      ∧ ∃ pre post : List (Int × String),
          emitted (fun w => w.writeJsonType exampleEnv optionalItemsKind "res") emptyModel 0
            = some (linesText pre ++ ln 2 "ec.json.String(*val)" ++ linesText post) := by
  refine ⟨by decide, by decide, rfl, ?_⟩
  obtain ⟨name, flag, pre, post, hname, hflag, _, he, hb, _⟩ :=
    writeJsonType_leaf_arguments exampleEnv (by decide) optionalItemsKind emptyModel 0
      (by decide)
  have hname' : name = "val" := hname.trans (by decide)
  have hflag' : flag = true := hflag.trans (by decide)
  subst hname' hflag'
  refine ⟨pre, post, ?_⟩
  have hleaf : emitted (fun w => doWriteJsonType exampleEnv optionalItemsKind w "val" [] true)
      emptyModel (0 + optionalItemsKind.Modifiers.length)
        = some (ln 2 "ec.json.String(*val)") := by
    rw [hb rfl]
    decide
  rw [he, hleaf]
  rfl



/-- C12. The routine written by `writeObjectResolver` holds one block per declared field,
in declared order.  A block opens with `case <quoted GraphQLName>:`, then holds
`ec.json.ObjectKey(field.Alias)`, the resolution code, the serialization code of the type
of the field on `res`, and `continue`.  The line
`panic("unknown field " + strconv.Quote(field.Name))` is written once, after the end of
the switch and inside the loop. -/
theorem writeObjectResolver_blocks (E : Env) (o : object) (x : extractor) (n : Int) :
    emitted (fun w => w.writeObjectResolver E o) x n =
        (if n < 0 then none else
          (lcFirst E o.Type_.GraphQLName).bind fun l =>
            (texts (o.Fields.map fun f =>
                emitted (fun w => w.writeObjectResolverField E o f) x (n + 2))).map fun blocks =>
              ln n "// nolint: gocyclo, errcheck, gas, goconst"
                ++ ln n ("func _" ++ l
                    ++ "(ec *executionContext, sel []query.Selection, it *" ++ o.Type_.Local
                    ++ ") \x7b")
                ++ ln (n + 1) ("groupedFieldSet := ec.collectFields(sel, " ++ l
                    ++ "Satisfies, map[string]bool\x7b\x7d)")
                ++ ln (n + 1) "ec.json.BeginObject()"
                ++ ln (n + 1) "for _, field := range groupedFieldSet \x7b"
                ++ ln (n + 2) "switch field.Name \x7b"
                ++ blocks
                ++ ln (n + 2) "\x7d"
                ++ ln (n + 2) "panic(\"unknown field \" + strconv.Quote(field.Name))"
                ++ ln (n + 1) "\x7d"
                ++ ln (n + 1) "ec.json.EndObject()"
                ++ ln n "\x7d"
                ++ ["\n"])
      ∧ (∀ (f : Field) (m : Int),
          emitted (fun w => w.writeObjectResolverField E o f) x m =
            if m < 0 then none else
              (texts [
                emitted (fun w => if f.VarName ≠ "" then w.writeEvaluateVar f
                  else w.writeEvaluateMethod E o f) x (m + 1),
                emitted (fun w => w.writeJsonType E f.Type_ "res") x (m + 1)]).map fun body =>
              ln m ("case " ++ Quote E f.GraphQLName ++ ":")
                ++ ln (m + 1) "ec.json.ObjectKey(field.Alias)"
                ++ body
                ++ ln (m + 1) "continue"
                ++ ln m "")
      ∧ (0 ≤ n → objectOk o = true →
          ∃ out, emitted (fun w => w.writeObjectResolver E o) x n = some out
            ∧ out.count "panic(\"unknown field \" + strconv.Quote(field.Name))" = 1) := by
  refine ⟨(emits_writeObjectResolver E o).emitted_eq x n, fun f m => ?_, fun hn hok => ?_⟩
  · rw [(emits_writeObjectResolverField E o f).emitted_eq]
    by_cases h : m < 0
    · simp [h]
    · have h1 : 0 ≤ m + 1 := by omega
      simp only [h, if_false]
      congr 3
      by_cases hv : f.VarName = ""
      · simp [hv]
      · simp [hv, emitted, writeEvaluateVar, line_some, h1, Sprintf_resVar]
  · have hn' : ¬ n < 0 := by omega
    have hname : o.Type_.GraphQLName ≠ "" := by
      simp only [objectOk, Bool.and_eq_true, decide_eq_true_eq] at hok
      exact hok.1
    have hfields : ∀ f ∈ o.Fields, namesOk f.Type_ = true := by
      simp only [objectOk, Bool.and_eq_true, List.all_eq_true] at hok
      exact hok.2
    obtain ⟨l, hl⟩ := lcFirst_some E o.Type_.GraphQLName hname
    obtain ⟨blocks, hb, hbl⟩ := blocks_lines E o x (n + 2) (by omega) hfields
    rw [(emits_writeObjectResolver E o).emitted_eq, if_neg hn', hl, Option.some_bind, hb]
    refine ⟨_, rfl, ?_⟩
    have hp : ("panic(\"unknown field \" + strconv.Quote(field.Name))").data.head? = some 'p' :=
      rfl
    have z : ∀ (k : Int) (s : String), okHead s = true →
        (ln k s).count "panic(\"unknown field \" + strconv.Quote(field.Name))" = 0 :=
      fun k s hs => (@LinesFrom.single k k s le_rfl hs).count_eq_zero _ hp
    have h1 : ∀ k : Int, (ln k "panic(\"unknown field \" + strconv.Quote(field.Name))").count
        "panic(\"unknown field \" + strconv.Quote(field.Name))" = 1 := by
      intro k
      have ht : tabs k ≠ "panic(\"unknown field \" + strconv.Quote(field.Name))" :=
        tabs_ne k _ 'p' rfl (by decide)
      simp [ln, List.count_cons, ht]
    simp only [List.count_append, hbl.count_eq_zero _ hp, h1]
    rw [z _ _ (by decide), z _ _ (by simp [okHead, String.data_append]),
      z _ _ (by simp [okHead, String.data_append]), z _ _ (by decide), z _ _ (by decide),
      z _ _ (by decide), z _ _ (by decide), z _ _ (by decide), z _ _ (by decide),
      z _ _ (by decide)]
    decide

/-- C12 on the object `Todo`: one panic line for its three blocks. -/
theorem writeObjectResolver_blocks_witness :
    (0 : Int) ≤ 0 ∧ objectOk todoObject = true
      ∧ ∃ out, emitted (fun w => w.writeObjectResolver exampleEnv todoObject) todoModel 0
            = some out
          ∧ out.count "panic(\"unknown field \" + strconv.Quote(field.Name))" = 1 :=
  ⟨by decide, by decide,
    (writeObjectResolver_blocks exampleEnv todoObject todoModel 0).2.2 (by decide) (by decide)⟩



/-- C19. Each of `writeImports`, `writeInterface`, `writeVars`, `writeObjectResolver` and
`writeJsonType` returns with the indent it was entered with.  Entered with an indent that
is not negative, in particular with 0, and with names that `lcFirst` and `ucFirst`
accept, it returns, so `emitIndent` never meets a negative indent, and every line it
writes is indented for an indent of at least the indent on entry. -/
theorem indent_balanced (E : Env) :
    (∀ (w w' : writer) (o : object) (t : kind) (val : String),
      (w.writeImports E = some w' → w'.indent = w.indent)
      ∧ (w.writeInterface = some w' → w'.indent = w.indent)
      ∧ (w.writeVars E = some w' → w'.indent = w.indent)
      ∧ (w.writeObjectResolver E o = some w' → w'.indent = w.indent)
      ∧ (w.writeJsonType E t val = some w' → w'.indent = w.indent))
    ∧ (∀ w : writer, 0 ≤ w.indent →
      (∃ text, w.writeImports E = some { w with out := w.out ++ text }
        ∧ IndentedFrom w.indent text)
      ∧ (∃ text, w.writeInterface = some { w with out := w.out ++ text }
        ∧ IndentedFrom w.indent text)
      ∧ ((∀ o ∈ w.extractor.Objects, o.Type_.GraphQLName ≠ "") →
          ∃ text, w.writeVars E = some { w with out := w.out ++ text }
            ∧ IndentedFrom w.indent text)
      ∧ (∀ o : object, objectOk o = true →
          ∃ text, w.writeObjectResolver E o = some { w with out := w.out ++ text }
            ∧ IndentedFrom w.indent text)
      ∧ (∀ (t : kind) (val : String), namesOk t = true →
          ∃ text, w.writeJsonType E t val = some { w with out := w.out ++ text }
            ∧ IndentedFrom w.indent text)) := by
  have restore : ∀ (f : writer → Option writer) (T : extractor → Int → Option (List String)),
      Emits f T → ∀ w w' : writer, f w = some w' → w'.indent = w.indent := by
    intro f T hf w w' h
    rw [hf w] at h
    cases hT : T w.extractor w.indent with
    | none => rw [hT] at h; cases h
    | some s => rw [hT] at h; cases h; rfl
  have run : ∀ (f : writer → Option writer) (T : extractor → Int → Option (List String)),
      Emits f T → ∀ (w : writer) (text : List String), T w.extractor w.indent = some text →
        f w = some { w with out := w.out ++ text } := by
    intro f T hf w text h
    rw [hf w, h]
    rfl
  refine ⟨fun w w' o t val => ⟨restore _ _ (emits_writeImports E) w w',
    restore _ _ emits_writeInterface w w', restore _ _ (emits_writeVars E) w w',
    restore _ _ (emits_writeObjectResolver E o) w w',
    restore _ _ (emits_writeJsonType E t val) w w'⟩, fun w hn => ?_⟩
  have hn' : ¬ w.indent < 0 := by omega
  refine ⟨?_, ?_, fun hnames => ?_, fun o hok => ?_, fun t val hok => ?_⟩
  · refine ⟨_, run _ _ (emits_writeImports E) w _ (if_neg hn'), ?_⟩
    refine (((IndentedFrom.of_ln le_rfl (by decide)).append
      (IndentedFrom.flatMap _ _ fun lp _ =>
        IndentedFrom.of_ln (by omega) (importLine_ne_lf E lp.1 lp.2))).append
      (IndentedFrom.of_ln le_rfl (by decide))).append (IndentedFrom.blank _)
  · refine ⟨_, run _ _ emits_writeInterface w _ (if_neg hn'), ?_⟩
    refine (((IndentedFrom.of_ln le_rfl (by decide)).append
      (IndentedFrom.flatMap _ _ fun o _ => IndentedFrom.flatMap _ _ fun f _ => ?_)).append
      (IndentedFrom.of_ln le_rfl (by decide))).append (IndentedFrom.blank _)
    split
    · exact specOperation_indented _ _ o f (by omega)
    · exact IndentedFrom.nil _
  · have hbody : ∃ body, texts (w.extractor.Objects.map fun o =>
          (lcFirst E o.Type_.GraphQLName).map fun l =>
            ln (w.indent + 1) (l ++ "Satisfies = []string\x7b" ++ satisfiesList E o ++ "\x7d"))
          = some body ∧ IndentedFrom w.indent body := by
      generalize w.extractor.Objects = os at hnames
      induction os with
      | nil => exact ⟨[], rfl, IndentedFrom.nil _⟩
      | cons o os ih =>
        obtain ⟨l, hl⟩ := lcFirst_some E o.Type_.GraphQLName (hnames o (by simp))
        obtain ⟨body, hb, hi⟩ := ih fun o ho => hnames o (by simp [ho])
        refine ⟨_, by simp only [List.map_cons, texts, hl, hb]; rfl, ?_⟩
        exact (IndentedFrom.of_ln (by omega) (satisfiesLine_ne_lf _ _)).append hi
    obtain ⟨body, hb, hi⟩ := hbody
    refine ⟨_, run _ _ (emits_writeVars E) w _ (by rw [if_neg hn', hb]; rfl), ?_⟩
    exact (((IndentedFrom.of_ln le_rfl (by decide)).append hi).append
      (IndentedFrom.of_ln le_rfl (by decide))).append (IndentedFrom.blank _)
  · have hname : o.Type_.GraphQLName ≠ "" := by
      simp only [objectOk, Bool.and_eq_true, decide_eq_true_eq] at hok
      exact hok.1
    have hfields : ∀ f ∈ o.Fields, namesOk f.Type_ = true := by
      simp only [objectOk, Bool.and_eq_true, List.all_eq_true] at hok
      exact hok.2
    obtain ⟨l, hl⟩ := lcFirst_some E o.Type_.GraphQLName hname
    obtain ⟨blocks, hb, hbl⟩ := blocks_lines E o w.extractor (w.indent + 2) (by omega) hfields
    refine ⟨_, run _ _ (emits_writeObjectResolver E o) w _
      (by rw [if_neg hn', hl, Option.some_bind, hb]; rfl), ?_⟩
    refine ((((((((((((IndentedFrom.of_ln le_rfl (by decide)).append
      (IndentedFrom.of_ln le_rfl (by simp [String.ext_iff, String.data_append]))).append
      (IndentedFrom.of_ln (by omega) (by simp [String.ext_iff, String.data_append]))).append
      (IndentedFrom.of_ln (by omega) (by decide))).append
      (IndentedFrom.of_ln (by omega) (by decide))).append
      (IndentedFrom.of_ln (by omega) (by decide))).append
      (hbl.mono (by omega)).indented).append
      (IndentedFrom.of_ln (by omega) (by decide))).append
      (IndentedFrom.of_ln (by omega) (by decide))).append
      (IndentedFrom.of_ln (by omega) (by decide))).append
      (IndentedFrom.of_ln (by omega) (by decide))).append
      (IndentedFrom.of_ln le_rfl (by decide))).append (IndentedFrom.blank _)
  · obtain ⟨out, ho, hl⟩ := walker_lines E t w.extractor hok t.Modifiers val false w.indent hn
    exact ⟨out, run _ _ (emits_writeJsonType E t val) w out ho, hl.indented⟩

/-- C19 on the object `Todo` and on the chain list, optional, list, from the indent 0. -/
theorem indent_balanced_witness :
    (0 : Int) ≤ 0 ∧ objectOk todoObject = true ∧ namesOk nestedKind = true
      ∧ (∃ text, writer.writeObjectResolver exampleEnv ⟨todoModel, [], 0⟩ todoObject
            = some ⟨todoModel, [] ++ text, 0⟩ ∧ IndentedFrom 0 text)
      ∧ (∃ text, writer.writeJsonType exampleEnv ⟨todoModel, [], 0⟩ nestedKind "res"
            = some ⟨todoModel, [] ++ text, 0⟩ ∧ IndentedFrom 0 text) :=
  ⟨by decide, by decide, by decide,
    ((indent_balanced exampleEnv).2 ⟨todoModel, [], 0⟩ (by decide)).2.2.2.1 todoObject
      (by decide),
    ((indent_balanced exampleEnv).2 ⟨todoModel, [], 0⟩ (by decide)).2.2.2.2 nestedKind "res"
      (by decide)⟩


end Dumper
